import Mathlib

/-
Verification of the release-data cache and aggregation engine of the
vscode-contributor-website repository (package scraper, src/scraper/scraper.go,
and the leaderboard aggregation of package web, src/web/web.go).

Go strings are modelled as lists of characters (`GoStr`); every operation from
the Go standard library that the scraped code uses (strings.Split, TrimRight,
TrimPrefix, TrimSuffix, TrimSpace, Index, Contains, ToLower, EqualFold,
SplitN, Replace, strconv.Atoi) is given an executable model below, faithful to
its behaviour on the ASCII inputs this program manipulates.  The regular
expressions of scraper.go are compiled by hand into deterministic matching
functions: each regex used by the program is anchored or built from
character-complement classes, so Go's leftmost-greedy semantics reduce to the
first-occurrence scans implemented here (the justification is given at each
matcher).  The process-wide release map is modelled as an association list
carrying one concrete iteration order; map iteration order in Go is
unspecified, which is exactly what the order-sensitivity claims below are
about.
-/

/-- Model of a Go string: a list of characters. -/
abbrev GoStr := List Char

/-- Backtick character (used by the repo-section regex), written numerically. -/
def btick : Char := Char.ofNat 96

/-- Model of strings.ToLower (ASCII case mapping; every handle and query this
program compares is ASCII). -/
def toLowerStr (s : GoStr) : GoStr := s.map Char.toLower

/-- First index at which `sub` occurs inside `s`, model of strings.Index
(which returns -1, modelled as `none`, when absent). -/
def indexOfSub : GoStr → GoStr → Option Nat
  | s, sub =>
    if sub.isPrefixOf s then some 0
    else
      match s with
      | [] => none
      | _ :: t => (indexOfSub t sub).map (fun n => n + 1)

/-- Model of strings.Contains. -/
def containsSub (s sub : GoStr) : Bool := (indexOfSub s sub).isSome

/-- Model of strings.EqualFold on ASCII strings: equality after lower-casing. -/
def equalFold (a b : GoStr) : Bool := toLowerStr a == toLowerStr b

/-- Whitespace for Go's unicode.IsSpace, restricted to the ASCII range that
occurs in release-notes documents. -/
def isSpaceChar (c : Char) : Bool :=
  c == ' ' || c == '\t' || c == '\n' || c == '\x0b' || c == '\x0c' || c == '\r'

/-- Whitespace class of Go regexp (RE2 \s is [\t\n\f\r ]). -/
def isRegexSpace (c : Char) : Bool :=
  c == ' ' || c == '\t' || c == '\n' || c == '\x0c' || c == '\r'

/-- Drop the longest suffix of characters satisfying `p`. -/
def dropTrailingWhile (p : Char → Bool) (s : GoStr) : GoStr :=
  (s.reverse.dropWhile p).reverse

/-- Model of strings.TrimSpace. -/
def trimSpace (s : GoStr) : GoStr :=
  dropTrailingWhile isSpaceChar (s.dropWhile isSpaceChar)

/-- Model of strings.TrimRight(line, "\r"): remove every trailing carriage
return. -/
def trimRightCR (s : GoStr) : GoStr := dropTrailingWhile (fun c => c == '\r') s

/-- Model of strings.TrimPrefix. -/
def dropPrefixL (s pre : GoStr) : GoStr :=
  if pre.isPrefixOf s then s.drop pre.length else s

/-- Model of strings.TrimSuffix. -/
def dropSuffixL (s suf : GoStr) : GoStr :=
  if suf.isSuffixOf s then s.take (s.length - suf.length) else s

/-- Split at the first occurrence of character `c`: returns the parts before
and after it, or `none` when `c` does not occur. -/
def splitFirst : GoStr → Char → Option (GoStr × GoStr)
  | [], _ => none
  | a :: t, c =>
    if a = c then some ([], t)
    else (splitFirst t c).map (fun p => (a :: p.1, p.2))

/-- Model of strings.SplitN(s, sep, 2) for a one-character separator. -/
def splitN2 (s : GoStr) (c : Char) : List GoStr :=
  match splitFirst s c with
  | some (a, b) => [a, b]
  | none => [s]

/-- Replace the first occurrence of character `c` by `d`, model of
strings.Replace(s, c, d, 1) for one-character arguments. -/
def replaceFirstChar : GoStr → Char → Char → GoStr
  | [], _, _ => []
  | a :: t, c, d => if a = c then d :: t else a :: replaceFirstChar t c d

/-- Numeric value of a digit string. -/
def digitsVal (s : GoStr) : Nat :=
  s.foldl (fun acc c => acc * 10 + (c.toNat - 48)) 0

/-- Model of strconv.Atoi with its error ignored, as scraper.go does: a
non-empty all-digit string parses to its value, anything else yields Atoi's
zero error value.  Every string this program feeds to Atoi comes from a
`\d+` regex capture or from splitting a catalog identifier, so the sign
forms accepted by Atoi never occur. -/
def atoiNat (s : GoStr) : Nat :=
  if s.isEmpty || !(s.all Char.isDigit) then 0 else digitsVal s

/-- Model of scraper.versionNumber: "v1_109" -> 1109 mapped as 1*10000+109;
identifiers without an underscore after trimming the leading "v" yield 0. -/
def versionNumber (id : GoStr) : Nat :=
  let s := dropPrefixL id ("v".toList)
  match splitN2 s '_' with
  | [a, b] => atoiNat a * 10000 + atoiNat b
  | _ => 0

/-- Model of scraper.PR. -/
structure PR where
  title : GoStr
  url : GoStr
  repo : GoStr
  number : GoStr
  deriving DecidableEq, Repr

/-- Model of scraper.Contributor. -/
structure Contributor where
  name : GoStr
  githubUser : GoStr
  avatarURL : GoStr
  prs : List PR
  deriving DecidableEq, Repr

/-- Model of scraper.Release. -/
structure Release where
  version : GoStr
  displayName : GoStr
  contributors : List Contributor
  deriving DecidableEq, Repr

/-- Model of scraper.VersionInfo. -/
structure VersionInfo where
  id : GoStr
  display : GoStr
  deriving DecidableEq, Repr

/-- Capture groups of one match of scraper.prLinkRe. -/
structure PRLinkMatch where
  full : GoStr
  num : GoStr
  url : GoStr
  repoPath : GoStr
  deriving DecidableEq, Repr

/-- Matcher for scraper.versionFileRe, the anchored regex
(caret)(v\d+_\d+)\.md(dollar).  Both `\d+` groups are followed by a
non-digit literal, so greediness forces each to be the maximal digit run;
the matcher is therefore deterministic. -/
def matchVersionFile (name : GoStr) : Option GoStr :=
  match name with
  | [] => none
  | c :: rest =>
    if c = 'v' then
      let a := rest.takeWhile Char.isDigit
      let r1 := rest.dropWhile Char.isDigit
      if a.isEmpty then none
      else
        match r1 with
        | [] => none
        | c2 :: r2 =>
          if c2 = '_' then
            let b := r2.takeWhile Char.isDigit
            let r3 := r2.dropWhile Char.isDigit
            if b.isEmpty then none
            else if r3 = ('.' :: 'm' :: 'd' :: []) then some ('v' :: a ++ '_' :: b)
            else none
          else none
    else none

/-- Matcher for scraper.contribLineRe, the anchored regex
(caret)\* \[@([^\]]+)\]\(https://github\.com/([^)]+)\)(.*)(dollar).
Group 1 cannot contain a closing bracket and must be followed by one, so it
extends exactly to the first closing bracket; likewise group 2 extends to the
first closing parenthesis.  Returns (group1, group2, group3). -/
def matchContribLine (line : GoStr) : Option (GoStr × GoStr × GoStr) :=
  if ("* [@".toList).isPrefixOf line then
    match splitFirst (line.drop 4) ']' with
    | some (g1, r2) =>
      if g1.isEmpty then none
      else if ("(https://github.com/".toList).isPrefixOf r2 then
        match splitFirst (r2.drop 20) ')' with
        | some (g2, r4) => if g2.isEmpty then none else some (g1, g2, r4)
        | none => none
      else none
    | none => none
  else none

/-- Matcher for scraper.subItemRe, the anchored regex
(caret)\s+\* (.+)(dollar): leading regex whitespace (at least one), then the
bullet, then a non-empty remainder.  The whitespace run must be maximal since
the bullet is not whitespace. -/
def matchSubItem (line : GoStr) : Option GoStr :=
  let pre := line.takeWhile isRegexSpace
  let r := line.dropWhile isRegexSpace
  if pre.isEmpty then none
  else if ("* ".toList).isPrefixOf r then
    let content := r.drop 2
    if content.isEmpty then none else some content
  else none

/-- Matcher for scraper.repoSectionRe: the line is the literal prefix
"Contributions to " followed by a backtick, a non-empty backtick-free group,
a backtick, and an optional trailing colon. -/
def repoSectionMatch (line : GoStr) : Bool :=
  if ("Contributions to ".toList ++ [btick]).isPrefixOf line then
    match splitFirst (line.drop 18) btick with
    | some (g, rest) => !g.isEmpty && (rest.isEmpty || rest == (':' :: []))
    | none => false
  else false

/-- Try to match scraper.prLinkRe
\[PR #(\d+)\]\((https://github\.com/([^)]+)/pull/\d+)\) at the head of `s`;
on success return the capture groups and the remainder of the string after
the match.  Group 3 cannot contain a closing parenthesis, and neither can
"/pull/" or the digits, so the parenthesised URL spans exactly to the first
closing parenthesis; greediness of group 3 picks the last "/pull/<digits>"
suffix, i.e. the trailing maximal digit run preceded by "/pull/". -/
def matchPRAt (s : GoStr) : Option (PRLinkMatch × GoStr) :=
  if ("[PR #".toList).isPrefixOf s then
    let t := s.drop 5
    let num := t.takeWhile Char.isDigit
    let t2 := t.dropWhile Char.isDigit
    if num.isEmpty then none
    else if ("](https://github.com/".toList).isPrefixOf t2 then
      match splitFirst (t2.drop 21) ')' with
      | some (inside, rest) =>
        let d := (inside.reverse.takeWhile Char.isDigit).reverse
        let stem := dropTrailingWhile Char.isDigit inside
        if d.isEmpty then none
        else if ("/pull/".toList).isSuffixOf stem then
          let g3 := stem.take (stem.length - 6)
          if g3.isEmpty then none
          else
            let url := "https://github.com/".toList ++ inside
            some ({ full := "[PR #".toList ++ num ++ "](".toList ++ url ++ [')'],
                    num := num, url := url, repoPath := g3 }, rest)
        else none
      | none => none
    else none
  else none

/-- All matches of prLinkRe in `s`, leftmost first, continuing after each
match, as Go's FindAllStringSubmatch produces them.  Fuel-indexed recursion;
`s.length` fuel suffices because every step consumes at least one
character. -/
def findAllPRAux : Nat → GoStr → List PRLinkMatch
  | 0, _ => []
  | _, [] => []
  | Nat.succ fuel, s@(_ :: t) =>
    match matchPRAt s with
    | some (m, rest) => m :: findAllPRAux fuel rest
    | none => findAllPRAux fuel t

/-- Model of prLinkRe.FindAllStringSubmatch(s, -1). -/
def findAllPR (s : GoStr) : List PRLinkMatch := findAllPRAux s.length s

/-- Model of scraper.extractDescription: the trimmed text before the first
occurrence of the matched link text, with one leading colon (optionally
followed by a space) stripped.  Go's `idx <= 0` covers both the not-found
index -1 and a match at position 0. -/
def extractDescription (text prLink : GoStr) : GoStr :=
  match indexOfSub text prLink with
  | none => []
  | some idx =>
    if idx = 0 then []
    else
      let d0 := trimSpace (text.take idx)
      let d1 := dropPrefixL d0 (": ".toList)
      let d2 := dropPrefixL d1 (":".toList)
      trimSpace d2

/-- Avatar URL derived from the handle, as fmt.Sprintf builds it in
parseMarkdown. -/
def mkAvatarURL (u : GoStr) : GoStr :=
  "https://github.com/".toList ++ u ++ ".png?size=80".toList

/-- Contributor built from a contribLineRe match, before PR extraction:
the display name is the parenthetical part of the link text when present,
else the handle. -/
def contribFromMatch (displayText githubUser : GoStr) : Contributor :=
  let name :=
    match indexOfSub displayText (" (".toList) with
    | some idx => dropSuffixL (displayText.drop (idx + 2)) (")".toList)
    | none => githubUser
  { name := name, githubUser := githubUser,
    avatarURL := mkAvatarURL githubUser, prs := [] }

/-- PR records extracted from one line fragment: each prLinkRe match paired
with the description preceding that match text. -/
def prsFromText (text : GoStr) : List PR :=
  (findAllPR text).map fun m =>
    { title := extractDescription text m.full,
      url := m.url, repo := m.repoPath, number := m.num }

/-- Apply `f` to the last element of the list, the model of writing through
Go's `currentContrib` pointer to the release's contributor slice. -/
def updateLast (f : Contributor → Contributor) : List Contributor → List Contributor
  | [] => []
  | c :: [] => (f c) :: []
  | c :: rest => c :: updateLast f rest

/-- Line loop of scraper.parseMarkdown: `inPR` is the in-section flag,
`hasCur` records whether `currentContrib` is non-nil (it always aliases the
last appended contributor), `acc` is the contributor sequence built so far.
Encountering a "## " heading inside the section stops the whole scan. -/
def parseLines : List GoStr → Bool → Bool → List Contributor → List Contributor
  | [], _, _, acc => acc
  | line :: rest, inPR, hasCur, acc =>
    let l := trimRightCR line
    if ("### Pull Requests".toList).isPrefixOf l then
      parseLines rest true hasCur acc
    else if !inPR then
      parseLines rest inPR hasCur acc
    else if ("## ".toList).isPrefixOf l then
      acc
    else if repoSectionMatch l then
      parseLines rest inPR false acc
    else
      match matchContribLine l with
      | some (g1, g2, g3) =>
        let c0 := contribFromMatch g1 g2
        parseLines rest inPR true (acc ++ [{ c0 with prs := prsFromText g3 }])
      | none =>
        if hasCur then
          match matchSubItem l with
          | some content =>
            parseLines rest inPR hasCur
              (updateLast (fun c => { c with prs := c.prs ++ prsFromText content }) acc)
          | none => parseLines rest inPR hasCur acc
        else parseLines rest inPR hasCur acc

/-- Display form of a version identifier: strip one leading "v", replace the
first underscore with a dot (shared by parseMarkdown, toVersionInfos and
discoverVersions). -/
def displayOf (version : GoStr) : GoStr :=
  replaceFirstChar (dropPrefixL version ("v".toList)) '_' '.'

/-- Model of scraper.parseMarkdown. -/
def parseMarkdown (version md : GoStr) : Release :=
  { version := version,
    displayName := displayOf version,
    contributors := parseLines (md.splitOn '\n') false false [] }

/-- The process-wide release map `cached`, modelled as an association list
carrying one concrete iteration order (Go map iteration order is
unspecified; the order-sensitivity results below quantify over it via
permutations). -/
abbrev Cache := List (GoStr × Release)

/-- Lookup in the release map. -/
def lookupRel (cache : Cache) (version : GoStr) : Option Release :=
  (cache.find? (fun p => decide (p.1 = version))).map (fun p => p.2)

/-- Outcome of the raw-document endpoint for each version: the body text, or
`none` for the transport, non-200-status and body-read error paths of
scraper.fetchRelease. -/
structure FetchEnv where
  body : GoStr → Option GoStr

/-- Model of scraper.fetchRelease: on a successful fetch the body is parsed
(parsing itself never fails). -/
def fetchRelease (env : FetchEnv) (version : GoStr) : Option Release :=
  (env.body version).map (parseMarkdown version)

/-- Zero value Release{}, returned by GetRelease on a failed fetch. -/
def emptyRelease : Release := { version := [], displayName := [], contributors := [] }

/-- Result of one GetRelease call: the returned pair, the release map after
the call, and how many fetch attempts were made. -/
structure GetReleaseResult where
  release : Release
  found : Bool
  cache : Cache
  fetches : Nat
  deriving DecidableEq, Repr

/-- Model of scraper.GetRelease: cached value on a hit; otherwise one fetch,
whose failure leaves the map untouched and whose success installs the parsed
release under the requested version. -/
def GetRelease (cache : Cache) (env : FetchEnv) (version : GoStr) : GetReleaseResult :=
  match lookupRel cache version with
  | some r => { release := r, found := true, cache := cache, fetches := 0 }
  | none =>
    match fetchRelease env version with
    | none => { release := emptyRelease, found := false, cache := cache, fetches := 1 }
    | some rel =>
      { release := rel, found := true, cache := cache ++ [(version, rel)], fetches := 1 }

/-- Model of scraper.GetReleases: for each catalog version in order, the
cached release when it exists and has at least one contributor. -/
def GetReleases (versions : List VersionInfo) (cache : Cache) : List Release :=
  versions.filterMap (fun v =>
    match lookupRel cache v.id with
    | some r => if r.contributors.length > 0 then some r else none
    | none => none)

/-- Lookup in an association list (the model of reading a Go map). -/
def lookupA {κ β : Type} [DecidableEq κ] (m : List (κ × β)) (k : κ) : Option β :=
  (m.find? (fun p => decide (p.1 = k))).map (fun p => p.2)

/-- Update the entries with key `k` in place (the model of writing through a
Go map entry; the aggregation folds below only ever hold one entry per
key). -/
def updateA {κ β : Type} [DecidableEq κ] (m : List (κ × β)) (k : κ) (f : β → β) :
    List (κ × β) :=
  m.map (fun p => if p.1 = k then (p.1, f p.2) else p)

/-- One step of a keyed aggregation over a Go map: skip the element when
`pred` rejects it, bump the existing entry with `upd` when the key is
present, create it with `init` otherwise.  This is the shape of the
aggregation loops in SearchContributors and LeaderboardHandler. -/
def aggStep {κ α β : Type} [DecidableEq κ] (key : α → κ) (pred : α → Bool)
    (init : α → β) (upd : β → α → β) (m : List (κ × β)) (x : α) : List (κ × β) :=
  if pred x then
    match lookupA m (key x) with
    | some _ => updateA m (key x) (fun b => upd b x)
    | none => m ++ [(key x, init x)]
  else m

/-- Insert `x` into `l` before the first element `y` with `le x y`.  Part of
the sorting model below. -/
def insertLe {α : Type} (le : α → α → Bool) (x : α) : List α → List α
  | [] => [x]
  | y :: t => if le x y then x :: y :: t else y :: insertLe le x t

/-- Insertion sort with respect to a boolean comparator.  Go's sort.Slice is
an unspecified comparison sort: its output is some permutation of the input
that is ordered under the comparator, which for a total transitive
comparator with pairwise-distinct keys is unique.  The claims below use only
orderedness and the multiset of elements, properties shared by every
comparison sort, so this structurally-recursive model is faithful. -/
def sortLe {α : Type} (le : α → α → Bool) : List α → List α
  | [] => []
  | x :: t => insertLe le x (sortLe le t)

/-- Model of scraper.ContributorSearchResult. -/
structure ContributorSearchResult where
  githubUser : GoStr
  name : GoStr
  avatarURL : GoStr
  totalPRs : Nat
  releaseCount : Nat
  deriving DecidableEq, Repr

/-- Aggregation value stored in SearchContributors' byUser map. -/
structure AggEntry where
  githubUser : GoStr
  name : GoStr
  avatarURL : GoStr
  totalPRs : Nat
  releaseCount : Nat
  deriving DecidableEq, Repr

/-- Key of the byUser map: the lower-cased handle. -/
def searchKey (c : Contributor) : GoStr := toLowerStr c.githubUser

/-- Participation test of SearchContributors: the lower-cased handle contains
the (already lower-cased) query. -/
def searchPred (q : GoStr) (c : Contributor) : Bool :=
  containsSub (toLowerStr c.githubUser) q

/-- Entry created on first sight of a matching handle. -/
def searchInit (c : Contributor) : AggEntry :=
  { githubUser := c.githubUser, name := c.name, avatarURL := c.avatarURL,
    totalPRs := c.prs.length, releaseCount := 1 }

/-- Entry update on a further matching instance: PR count summed and the
release counter incremented (once per instance, as the Go loop does). -/
def searchUpd (a : AggEntry) (c : Contributor) : AggEntry :=
  { a with totalPRs := a.totalPRs + c.prs.length,
           releaseCount := a.releaseCount + 1 }

/-- Contributor instances of every cached release, in the nested order of the
two loops of SearchContributors. -/
def allContribs (cache : Cache) : List Contributor :=
  (cache.map (fun p => p.2)).flatMap (fun r => r.contributors)

/-- Conversion of an aggregation entry into the returned record. -/
def resultOfEntry (a : AggEntry) : ContributorSearchResult :=
  { githubUser := a.githubUser, name := a.name, avatarURL := a.avatarURL,
    totalPRs := a.totalPRs, releaseCount := a.releaseCount }

/-- Sort order of SearchContributors' results: TotalPRs descending.  Go uses
sort.Slice with this comparator; on distinct keys the result is the unique
descending permutation, and on ties the claims below only use descending
order and the multiset of results, both shared by every correct sort. -/
def searchLe (a b : ContributorSearchResult) : Bool := decide (b.totalPRs ≤ a.totalPRs)

/-- Model of scraper.SearchContributors. -/
def SearchContributors (cache : Cache) (query : GoStr) : List ContributorSearchResult :=
  let q := toLowerStr query
  if q.isEmpty then []
  else
    let agg := (allContribs cache).foldl
      (aggStep searchKey (searchPred q) searchInit searchUpd) []
    sortLe searchLe (agg.map (fun p => resultOfEntry p.2))

/-- Model of scraper.ContributorHistory. -/
structure ContributorHistory where
  githubUser : GoStr
  name : GoStr
  avatarURL : GoStr
  totalPRs : Nat
  releaseCount : Nat
  firstRelease : GoStr
  latestRelease : GoStr
  prsByRelease : List (GoStr × List PR)
  deriving DecidableEq, Repr

/-- Loop state of GetContributorHistory: the record under construction plus
the four local first/latest trackers. -/
structure HistState where
  hist : ContributorHistory
  firstVersion : GoStr
  latestVersion : GoStr
  firstVersionNum : Nat
  latestVersionNum : Nat
  deriving DecidableEq, Repr

/-- Zero-value loop state (empty strings, zero counters, empty map). -/
def initHistState : HistState :=
  { hist := { githubUser := [], name := [], avatarURL := [], totalPRs := 0,
              releaseCount := 0, firstRelease := [], latestRelease := [],
              prsByRelease := [] },
    firstVersion := [], latestVersion := [],
    firstVersionNum := 0, latestVersionNum := 0 }

/-- Model of `history.PRsByRelease[version] = append(history.PRsByRelease[version], prs...)`. -/
def appendPRsAt (m : List (GoStr × List PR)) (v : GoStr) (prs : List PR) :
    List (GoStr × List PR) :=
  if (m.find? (fun p => decide (p.1 = v))).isSome then
    m.map (fun p => if p.1 = v then (p.1, p.2 ++ prs) else p)
  else m ++ [(v, prs)]

/-- First contributor of a release whose lower-cased handle equals the
lower-cased username, the contributor GetContributorHistory's inner loop
selects before breaking. -/
def findMatch (ul : GoStr) (rel : Release) : Option Contributor :=
  rel.contributors.find? (fun c => decide (toLowerStr c.githubUser = ul))

/-- One iteration of GetContributorHistory's release loop: the first
contributor of the release whose lower-cased handle equals the lower-cased
username is taken (the Go loop breaks after it), the representative identity
fields are set on the first match overall, PRs and counters accumulate, and
the first/latest trackers improve under strict comparisons. -/
def histStep (ul : GoStr) (st : HistState) (entry : GoStr × Release) : HistState :=
  match findMatch ul entry.2 with
  | none => st
  | some contrib =>
    let h0 := st.hist
    let h1 := if h0.githubUser.isEmpty then
                { h0 with githubUser := contrib.githubUser, name := contrib.name,
                          avatarURL := contrib.avatarURL }
              else h0
    let h2 := if 0 < contrib.prs.length then
                { h1 with prsByRelease := appendPRsAt h1.prsByRelease entry.1 contrib.prs,
                          totalPRs := h1.totalPRs + contrib.prs.length }
              else h1
    let h3 := { h2 with releaseCount := h2.releaseCount + 1 }
    let vNum := versionNumber entry.1
    let fv := if st.firstVersion.isEmpty || vNum < st.firstVersionNum then
                (entry.1, vNum) else (st.firstVersion, st.firstVersionNum)
    let lv := if st.latestVersion.isEmpty || st.latestVersionNum < vNum then
                (entry.1, vNum) else (st.latestVersion, st.latestVersionNum)
    { hist := h3, firstVersion := fv.1, firstVersionNum := fv.2,
      latestVersion := lv.1, latestVersionNum := lv.2 }

/-- Model of scraper.GetContributorHistory. -/
def GetContributorHistory (cache : Cache) (username : GoStr) : Option ContributorHistory :=
  let ul := toLowerStr username
  let st := cache.foldl (histStep ul) initHistState
  if st.hist.githubUser.isEmpty then none
  else some { st.hist with firstRelease := st.firstVersion,
                           latestRelease := st.latestVersion }

/-- Model of scraper.IsFirstTimeContributor: scan the catalog, skip versions
at or after the target ordinal and versions without a cached release, and
report false exactly when some considered release holds a case-insensitive
match of the username. -/
def IsFirstTimeContributor (versions : List VersionInfo) (cache : Cache)
    (username version : GoStr) : Bool :=
  let targetNum := versionNumber version
  !(versions.any (fun v =>
    if targetNum ≤ versionNumber v.id then false
    else
      match lookupRel cache v.id with
      | none => false
      | some rel => rel.contributors.any (fun c => equalFold c.githubUser username)))

/-- Catalog sort order: version ordinal descending, the comparator of
discoverVersions' sort.Slice call.  With pairwise-distinct ordinals the
descending permutation is unique, so any correct sort, including Go's,
produces the same list. -/
def versionLe (x y : VersionInfo) : Bool :=
  decide (versionNumber y.id ≤ versionNumber x.id)

/-- Model of scraper.discoverVersions given the decoded directory listing:
filenames are filtered through versionFileRe, mapped to descriptors, and
sorted by ordinal descending. -/
def discoverVersions (entries : List GoStr) : List VersionInfo :=
  sortLe versionLe ((entries.filterMap matchVersionFile).map
    (fun id => { id := id, display := displayOf id }))

/-- Model of scraper.toVersionInfos. -/
def toVersionInfos (ids : List GoStr) : List VersionInfo :=
  ids.map (fun id => { id := id, display := displayOf id })

/-- Model of scraper.fallbackVersions. -/
def fallbackVersions : List GoStr :=
  [("v1_109").toList, ("v1_108").toList, ("v1_107").toList,
   ("v1_106").toList, ("v1_105").toList]

/-- Aggregation value of LeaderboardHandler's statsMap (web.go): the
representative identity fields, the running PR count, and the Releases set
modelled as a duplicate-free list in insertion order. -/
structure UserStats where
  name : GoStr
  githubUser : GoStr
  avatarURL : GoStr
  prCount : Nat
  releases : List GoStr
  deriving DecidableEq, Repr

/-- Model of web.LeaderboardEntry. -/
structure LeaderboardEntry where
  name : GoStr
  githubUser : GoStr
  avatarURL : GoStr
  prCount : Nat
  releases : Nat
  rank : Nat
  deriving DecidableEq, Repr

/-- Insertion into the Releases set (`s.Releases[v.ID] = true`). -/
def insertSet (l : List GoStr) (v : GoStr) : List GoStr :=
  if v ∈ l then l else l ++ [v]

/-- The (version, contributor) pairs LeaderboardHandler's nested loops visit:
catalog versions in order, each resolved against the release map snapshot
(an on-demand fetch that fails behaves like a missing entry and is skipped,
as is a release with no contributors). -/
def lbPairs (versions : List VersionInfo) (cache : Cache) : List (GoStr × Contributor) :=
  versions.flatMap (fun v =>
    match lookupRel cache v.id with
    | some rel =>
      if rel.contributors.length = 0 then []
      else rel.contributors.map (fun c => (v.id, c))
    | none => [])

/-- Key of statsMap: the contributor's handle exactly as written (the Go map
is indexed by `c.GitHubUser` with no case folding). -/
def lbKey (p : GoStr × Contributor) : GoStr := p.2.githubUser

/-- Stats updates common to both branches of the loop body: PR count, the
Releases set, and the keep-most-recent-non-empty name and avatar rules. -/
def lbUpd (s : UserStats) (p : GoStr × Contributor) : UserStats :=
  { s with prCount := s.prCount + p.2.prs.length,
           releases := insertSet s.releases p.1,
           name := if p.2.name.isEmpty then s.name else p.2.name,
           avatarURL := if p.2.avatarURL.isEmpty then s.avatarURL else p.2.avatarURL }

/-- Entry freshly created for an unseen handle, followed by the common
updates of the same iteration. -/
def lbInit (p : GoStr × Contributor) : UserStats :=
  lbUpd { name := p.2.name, githubUser := p.2.githubUser,
          avatarURL := p.2.avatarURL, prCount := 0, releases := [] } p

/-- The aggregation map after LeaderboardHandler's loops. -/
def lbAgg (versions : List VersionInfo) (cache : Cache) : List (GoStr × UserStats) :=
  (lbPairs versions cache).foldl (aggStep lbKey (fun _ => true) lbInit lbUpd) []

/-- Conversion of one stats value into an unranked leaderboard entry. -/
def entryOfStats (s : UserStats) : LeaderboardEntry :=
  { name := s.name, githubUser := s.githubUser, avatarURL := s.avatarURL,
    prCount := s.prCount, releases := s.releases.length, rank := 0 }

/-- Sort order of the "prs" tab: PR count descending, ties broken by release
count descending. -/
def lbLePRs (a b : LeaderboardEntry) : Bool :=
  decide (b.prCount < a.prCount) ||
    (decide (a.prCount = b.prCount) && decide (b.releases ≤ a.releases))

/-- Sort order of the "releases" tab: release count descending, ties broken
by PR count descending. -/
def lbLeReleases (a b : LeaderboardEntry) : Bool :=
  decide (b.releases < a.releases) ||
    (decide (a.releases = b.releases) && decide (b.prCount ≤ a.prCount))

/-- Dense one-based rank assignment, the model of the final index loop of
LeaderboardHandler (`entries[i].Rank = i + 1`). -/
def assignRanks (i : Nat) : List LeaderboardEntry → List LeaderboardEntry
  | [] => []
  | e :: t => { e with rank := i + 1 } :: assignRanks (i + 1) t

/-- Model of the aggregation, sort, truncation and rank-assignment core of
web.LeaderboardHandler: any tab other than "releases" is normalised to
"prs", the entries are sorted by the tab's comparator, cut to the top 50,
and given dense one-based ranks. -/
def LeaderboardCompute (versions : List VersionInfo) (cache : Cache) (tab : GoStr) :
    List LeaderboardEntry :=
  let t := if tab = ("releases").toList then tab else ("prs").toList
  let entries := (lbAgg versions cache).map (fun p => entryOfStats p.2)
  let sorted := if t = ("releases").toList then sortLe lbLeReleases entries
                else sortLe lbLePRs entries
  let limit := min 50 sorted.length
  assignRanks 0 (sorted.take limit)

/-- Versions of the cached releases in which the username has a
case-insensitive match, in cache iteration order (specification-side view of
GetContributorHistory's scan). -/
def matchedVersions (cache : Cache) (ul : GoStr) : List GoStr :=
  (cache.filter (fun e => (findMatch ul e.2).isSome)).map (fun e => e.1)

/-- Fold combining one aggregation entry with a further instance, used to
characterise the keyed aggregation loops. -/
def aggFold {α β : Type} (init : α → β) (upd : β → α → β) (ob : Option β) (x : α) :
    Option β :=
  match ob with
  | some b => some (upd b x)
  | none => some (init x)

/-- Release-notes version filenames of a given list of (major, minor) digit
strings, the inputs §4.1's discovery filter accepts. -/
def entryOfPair (p : GoStr × GoStr) : GoStr :=
  'v' :: (p.1 ++ '_' :: (p.2 ++ ('.' :: 'm' :: 'd' :: [])))

/-- Version descriptor the specification predicts for one (major, minor)
filename. -/
def descOfPair (p : GoStr × GoStr) : VersionInfo :=
  { id := 'v' :: (p.1 ++ '_' :: p.2), display := p.1 ++ '.' :: p.2 }

/-- Combined version ordinal of one (major, minor) pair. -/
def pairNum (p : GoStr × GoStr) : Nat := atoiNat p.1 * 10000 + atoiNat p.2

/-- Sample release-notes document used by the parsing results: one
contributor line inside a "### Pull Requests" section, with a repo-section
heading above it. -/
def sampleDoc : GoStr :=
  ("## Thank you\n\n### Pull Requests\n\nContributions to `vscode`:\n\n* [@alice (Alice A.)](https://github.com/alice): fixed bug [PR #42](https://github.com/org/repo/pull/42)\n").toList

/-- Pull request the parser extracts from sampleDoc. -/
def alicePR : PR :=
  { title := ("fixed bug").toList,
    url := ("https://github.com/org/repo/pull/42").toList,
    repo := ("org/repo").toList,
    number := ("42").toList }

/-- Contributor the parser extracts from sampleDoc. -/
def aliceContrib : Contributor :=
  { name := ("Alice A.").toList, githubUser := ("alice").toList,
    avatarURL := mkAvatarURL (("alice").toList), prs := [alicePR] }

/-- Minimal contributor record with the given handle, display name and PR
count, used by the concrete cache snapshots below. -/
def mkContrib (user name : GoStr) (nprs : Nat) : Contributor :=
  { name := name, githubUser := user, avatarURL := mkAvatarURL user,
    prs := (List.range nprs).map (fun i =>
      { title := [], url := [], repo := [], number := Nat.toDigits 10 i }) }

/-- Release with a single contributor, used by the concrete snapshots. -/
def mkRel (version : GoStr) (cs : List Contributor) : Release :=
  { version := version, displayName := displayOf version, contributors := cs }

/-- Cached release for "v1_50" containing alice, deliberately absent from the
fallback catalog used by the first-time-contributor counterexample. -/
def relAlice50 : Release :=
  mkRel (("v1_50").toList) [mkContrib (("alice").toList) (("Alice").toList) 1]

/-- Release holding the same handle twice, as one release document can
(the parser does not deduplicate). -/
def relDupAlice : Release :=
  mkRel (("v1_1").toList)
    [mkContrib (("alice").toList) (("Alice").toList) 1,
     mkContrib (("alice").toList) (("Alice").toList) 1]

/-- Release holding two distinct case variants of one handle. -/
def relTwoCases : Release :=
  mkRel (("v1_1").toList)
    [mkContrib (("Alice").toList) (("Alice").toList) 1,
     mkContrib (("alice").toList) (("Alice").toList) 1]

/-- Two releases in which alice appears under different display names, used
to expose iteration-order dependence of the aggregated history. -/
def relNameA : Release :=
  mkRel (("v1_1").toList) [mkContrib (("alice").toList) (("Alice A.").toList) 1]

/-- Companion release of relNameA with the other display name. -/
def relNameB : Release :=
  mkRel (("v1_2").toList) [mkContrib (("alice").toList) (("Alice B.").toList) 1]

/-- Cache snapshot holding relNameA then relNameB. -/
def cacheAB : Cache :=
  [((("v1_1").toList), relNameA), ((("v1_2").toList), relNameB)]

/-- The same map contents in the opposite iteration order. -/
def cacheBA : Cache :=
  [((("v1_2").toList), relNameB), ((("v1_1").toList), relNameA)]

/-- Document endpoint serving sampleDoc for "v1_1" and failing elsewhere. -/
def envSample : FetchEnv :=
  { body := fun v => if v = ("v1_1").toList then some sampleDoc else none }

/-- Document endpoint serving an empty document for "v1_7" and failing
elsewhere; an empty document parses to a release with no contributors. -/
def envEmptyDoc : FetchEnv :=
  { body := fun v => if v = ("v1_7").toList then some [] else none }

/-- One update of GetContributorHistory's first-release tracker: adopt the
version when none is held yet or when its ordinal is strictly smaller. -/
def minVerStep (acc : GoStr × Nat) (v : GoStr) : GoStr × Nat :=
  if acc.1.isEmpty || versionNumber v < acc.2 then (v, versionNumber v) else acc

/-- One update of GetContributorHistory's latest-release tracker: adopt the
version when none is held yet or when its ordinal is strictly larger. -/
def maxVerStep (acc : GoStr × Nat) (v : GoStr) : GoStr × Nat :=
  if acc.1.isEmpty || acc.2 < versionNumber v then (v, versionNumber v) else acc

/-- PR count contributed by one cached release to the history of the
lower-cased username: the first matching contributor's count, else zero. -/
def contribLen (ul : GoStr) (e : GoStr × Release) : Nat :=
  match findMatch ul e.2 with
  | some c => c.prs.length
  | none => 0

/-- PRsByRelease entry contributed by one cached release: present exactly
when the release matches and the matched contributor has at least one PR. -/
def histPRsOf (ul : GoStr) (e : GoStr × Release) : Option (GoStr × List PR) :=
  match findMatch ul e.2 with
  | some c => if 0 < c.prs.length then some (e.1, c.prs) else none
  | none => none

theorem splitFirst_eq_none {s : GoStr} {c : Char} (h : c ∉ s) : splitFirst s c = none := by
  induction s with
  | nil => rfl
  | cons a t ih =>
    simp only [List.mem_cons, not_or] at h
    have hac : ¬ a = c := fun hh => h.1 hh.symm
    simp [splitFirst, hac, ih h.2]

theorem versionNumber_of_no_underscore {version : GoStr}
    (h : '_' ∉ dropPrefixL version (("v").toList)) : versionNumber version = 0 := by
  unfold versionNumber splitN2
  simp only [splitFirst_eq_none h]

theorem lookupRel_append (c1 c2 : Cache) (v : GoStr) :
    lookupRel (c1 ++ c2) v =
      match lookupRel c1 v with
      | some r => some r
      | none => lookupRel c2 v := by
  unfold lookupRel
  rw [List.find?_append]
  cases h : c1.find? (fun p => decide (p.1 = v)) <;> simp [Option.or]

theorem lookupRel_singleton (v : GoStr) (r : Release) :
    lookupRel [(v, r)] v = some r := by
  simp [lookupRel, List.find?]

/-- C10: an identifier that is not of the v-major-underscore-minor shape (no
underscore once the leading "v" is trimmed) has internal ordinal 0, and
consequently IsFirstTimeContributor answers true for it on every catalog,
cache and handle, since no catalog entry can have an ordinal strictly below
zero. -/
theorem malformed_version_first_time (version : GoStr)
    (h : '_' ∉ dropPrefixL version (("v").toList)) :
    versionNumber version = 0 ∧
    ∀ (versions : List VersionInfo) (cache : Cache) (username : GoStr),
      IsFirstTimeContributor versions cache username version = true := by
  have hv := versionNumber_of_no_underscore h
  refine ⟨hv, fun versions cache username => ?_⟩
  simp [IsFirstTimeContributor, hv]

theorem malformed_version_first_time_witness :
    versionNumber (("latest").toList) = 0 ∧
    IsFirstTimeContributor (toVersionInfos fallbackVersions)
      [((("v1_50").toList), relAlice50)] (("alice").toList) (("latest").toList) = true := by
  have h := malformed_version_first_time (("latest").toList) (by decide)
  exact ⟨h.1, h.2 (toVersionInfos fallbackVersions)
    [((("v1_50").toList), relAlice50)] (("alice").toList)⟩

/-- C4: GetRelease serves a cached release with no fetch; on a miss it makes
exactly one fetch attempt, reports found = false with the map untouched when
the fetch fails (so a later call retries), and on success installs the
parsed release so that a subsequent call is served from the map with no
second fetch. -/
theorem GetRelease_cache_on_demand (cache : Cache) (env : FetchEnv) (version : GoStr) :
    (∀ r, lookupRel cache version = some r →
      GetRelease cache env version =
        { release := r, found := true, cache := cache, fetches := 0 }) ∧
    (lookupRel cache version = none →
      (GetRelease cache env version).fetches = 1 ∧
      (fetchRelease env version = none →
        GetRelease cache env version =
          { release := emptyRelease, found := false, cache := cache, fetches := 1 }) ∧
      (∀ rel, fetchRelease env version = some rel →
        GetRelease cache env version =
          { release := rel, found := true, cache := cache ++ [(version, rel)], fetches := 1 } ∧
        GetRelease (cache ++ [(version, rel)]) env version =
          { release := rel, found := true, cache := cache ++ [(version, rel)], fetches := 0 })) := by
  refine ⟨fun r hr => by simp [GetRelease, hr], fun hnone => ?_⟩
  refine ⟨?_, fun hf => by simp [GetRelease, hnone, hf], fun rel hf => ?_⟩
  · cases hf : fetchRelease env version <;> simp [GetRelease, hnone, hf]
  · have hlook : lookupRel (cache ++ [(version, rel)]) version = some rel := by
      rw [lookupRel_append, hnone, lookupRel_singleton]
    exact ⟨by simp [GetRelease, hnone, hf], by simp [GetRelease, hlook]⟩

theorem GetRelease_cache_on_demand_witness :
    GetRelease [] envSample (("v1_1").toList) =
      { release := parseMarkdown (("v1_1").toList) sampleDoc, found := true,
        cache := [] ++ [((("v1_1").toList), parseMarkdown (("v1_1").toList) sampleDoc)],
        fetches := 1 } ∧
    GetRelease ([] ++ [((("v1_1").toList), parseMarkdown (("v1_1").toList) sampleDoc)])
        envSample (("v1_1").toList) =
      { release := parseMarkdown (("v1_1").toList) sampleDoc, found := true,
        cache := [] ++ [((("v1_1").toList), parseMarkdown (("v1_1").toList) sampleDoc)],
        fetches := 0 } := by
  exact (GetRelease_cache_on_demand [] envSample (("v1_1").toList)).2 rfl |>.2.2
    (parseMarkdown (("v1_1").toList) sampleDoc) rfl

/-- C9: when the fetch succeeds but the document parses to zero contributors,
GetRelease stores and returns the empty release with found = true; the
stored empty release is invisible to GetReleases (which requires at least
one contributor), yet a later GetRelease call is served from the map and
performs no further fetch. -/
theorem GetRelease_empty_parse_cached (cache : Cache) (env : FetchEnv)
    (version txt : GoStr)
    (hmiss : lookupRel cache version = none)
    (hbody : env.body version = some txt)
    (hempty : (parseMarkdown version txt).contributors = []) :
    GetRelease cache env version =
      { release := parseMarkdown version txt, found := true,
        cache := cache ++ [(version, parseMarkdown version txt)], fetches := 1 } ∧
    (∀ versions, GetReleases versions (cache ++ [(version, parseMarkdown version txt)]) =
      GetReleases versions cache) ∧
    GetRelease (cache ++ [(version, parseMarkdown version txt)]) env version =
      { release := parseMarkdown version txt, found := true,
        cache := cache ++ [(version, parseMarkdown version txt)], fetches := 0 } := by
  have hf : fetchRelease env version = some (parseMarkdown version txt) := by
    simp [fetchRelease, hbody]
  have hlook : lookupRel (cache ++ [(version, parseMarkdown version txt)]) version =
      some (parseMarkdown version txt) := by
    rw [lookupRel_append, hmiss, lookupRel_singleton]
  refine ⟨by simp [GetRelease, hmiss, hf], fun versions => ?_, by simp [GetRelease, hlook]⟩
  unfold GetReleases
  refine List.filterMap_congr (fun v _ => ?_)
  rw [lookupRel_append]
  cases hcv : lookupRel cache v.id with
  | some r => rfl
  | none =>
    by_cases hv : v.id = version
    · subst hv
      rw [lookupRel_singleton]
      simp [hempty]
    · have hv2 : ¬ version = v.id := fun hh => hv hh.symm
      have : lookupRel [(version, parseMarkdown version txt)] v.id = none := by
        simp [lookupRel, List.find?, hv2]
      simp [this]

theorem GetRelease_empty_parse_cached_witness :
    GetRelease [] envEmptyDoc (("v1_7").toList) =
      { release := parseMarkdown (("v1_7").toList) [], found := true,
        cache := [] ++ [((("v1_7").toList), parseMarkdown (("v1_7").toList) [])],
        fetches := 1 } ∧
    GetReleases (toVersionInfos fallbackVersions)
        ([] ++ [((("v1_7").toList), parseMarkdown (("v1_7").toList) [])]) =
      GetReleases (toVersionInfos fallbackVersions) [] ∧
    GetRelease ([] ++ [((("v1_7").toList), parseMarkdown (("v1_7").toList) [])])
        envEmptyDoc (("v1_7").toList) =
      { release := parseMarkdown (("v1_7").toList) [], found := true,
        cache := [] ++ [((("v1_7").toList), parseMarkdown (("v1_7").toList) [])],
        fetches := 0 } := by
  have h := GetRelease_empty_parse_cached [] envEmptyDoc (("v1_7").toList) [] rfl rfl rfl
  exact ⟨h.1, h.2.1 (toVersionInfos fallbackVersions), h.2.2⟩

/-- C1 counterexample: on the document of the claim, the parser yields one
contributor alice with one pull request whose repo field is "org/repo" (the
whole path segment between github.com/ and /pull/), not "repo" as the claim
states. -/
theorem parse_sample_repo_counterexample :
    (parseMarkdown (("v1_100").toList) sampleDoc).contributors = [aliceContrib] ∧
    alicePR.repo ≠ ("repo").toList ∧
    (parseMarkdown (("v1_100").toList) sampleDoc).contributors ≠
      [{ aliceContrib with prs := [{ alicePR with repo := ("repo").toList }] }] := by
  refine ⟨by decide, by decide, by decide⟩

/-- C1 amended: parsing the claim's document yields exactly one contributor
with handle "alice" and display name "Alice A.", holding exactly one pull
request with title "fixed bug", number "42", url
"https://github.com/org/repo/pull/42" and repo "org/repo". -/
theorem parse_sample_release :
    parseMarkdown (("v1_100").toList) sampleDoc =
      { version := ("v1_100").toList, displayName := ("1.100").toList,
        contributors :=
          [{ name := ("Alice A.").toList, githubUser := ("alice").toList,
             avatarURL := ("https://github.com/alice.png?size=80").toList,
             prs := [{ title := ("fixed bug").toList,
                       url := ("https://github.com/org/repo/pull/42").toList,
                       repo := ("org/repo").toList,
                       number := ("42").toList }] }] } := by
  decide

/-- C3 counterexample: a well-formed version filename with an extension other
than md is rejected by the discovery filter, so no descriptor is produced
for it. -/
theorem discover_nonmd_counterexample :
    discoverVersions [("v1_2.txt").toList] = [] ∧
    discoverVersions [("v1_2.txt").toList] ≠
      [{ id := ("v1_2").toList, display := ("1.2").toList }] := by
  refine ⟨by decide, by decide⟩

/-- C2 counterexample: with the fallback catalog installed and a release for
"v1_50" cached on demand (a version absent from the catalog), the cached
release has a strictly smaller ordinal than "v1_109" and contains alice,
yet IsFirstTimeContributor("alice", "v1_109") is true, because the scan
only visits versions listed in the catalog. -/
theorem first_time_uncatalogued_counterexample :
    IsFirstTimeContributor (toVersionInfos fallbackVersions)
      [((("v1_50").toList), relAlice50)] (("alice").toList) (("v1_109").toList) = true ∧
    versionNumber (("v1_50").toList) < versionNumber (("v1_109").toList) ∧
    lookupRel [((("v1_50").toList), relAlice50)] (("v1_50").toList) = some relAlice50 ∧
    relAlice50.contributors.any
      (fun c => equalFold c.githubUser (("alice").toList)) = true := by
  refine ⟨by decide, by decide, by decide, by decide⟩

/-- C2 amended: IsFirstTimeContributor(handle, versionID) is true exactly
when no release that is both listed in the current catalog and cached, and
whose ordinal is strictly smaller than versionID's, contains a contributor
matching the handle case-insensitively; cached releases absent from the
catalog, releases at or after versionID, and uncached catalog entries are
never considered. -/
theorem IsFirstTimeContributor_iff (versions : List VersionInfo) (cache : Cache)
    (username version : GoStr) :
    IsFirstTimeContributor versions cache username version = true ↔
    ∀ v ∈ versions, versionNumber v.id < versionNumber version →
      ∀ rel, lookupRel cache v.id = some rel →
        ∀ c ∈ rel.contributors, ¬ equalFold c.githubUser username = true := by
  unfold IsFirstTimeContributor
  rw [Bool.not_eq_eq_eq_not, Bool.not_true, List.any_eq_false]
  constructor
  · intro h v hv hlt rel hrel c hc
    have hb := h v hv
    rw [if_neg (by omega), hrel] at hb
    simp only [Bool.not_eq_true, List.any_eq_false] at hb
    simp [hb c hc]
  · intro h v hv
    by_cases hord : versionNumber version ≤ versionNumber v.id
    · rw [if_pos hord]
      simp
    · rw [if_neg hord]
      cases hrel : lookupRel cache v.id with
      | none => simp
      | some rel =>
        simp only [Bool.not_eq_true, List.any_eq_false]
        exact fun c hc => by
          have := h v hv (by omega) rel hrel c hc
          simpa using this

theorem IsFirstTimeContributor_iff_witness :
    IsFirstTimeContributor (toVersionInfos fallbackVersions) [] (("alice").toList)
      (("v1_109").toList) = true :=
  (IsFirstTimeContributor_iff (toVersionInfos fallbackVersions) [] (("alice").toList)
      (("v1_109").toList)).mpr
    (fun v _ _ rel hrel => by simp [lookupRel] at hrel)

theorem insertLe_perm {α : Type} (le : α → α → Bool) (x : α) (l : List α) :
    (insertLe le x l).Perm (x :: l) := by
  induction l with
  | nil => exact List.Perm.refl _
  | cons y t ih =>
    by_cases h : le x y = true
    · simp [insertLe, h]
    · rw [insertLe, if_neg h]
      exact (ih.cons y).trans (List.Perm.swap x y t)

theorem sortLe_perm {α : Type} (le : α → α → Bool) (l : List α) :
    (sortLe le l).Perm l := by
  induction l with
  | nil => exact List.Perm.refl _
  | cons x t ih => exact (insertLe_perm le x (sortLe le t)).trans (ih.cons x)

theorem insertLe_pairwise {α : Type} {le : α → α → Bool}
    (htot : ∀ a b, (le a b || le b a) = true)
    (htrans : ∀ a b c, le a b = true → le b c = true → le a c = true)
    (x : α) {l : List α} (hl : l.Pairwise (fun a b => le a b = true)) :
    (insertLe le x l).Pairwise (fun a b => le a b = true) := by
  induction l with
  | nil => simp [insertLe]
  | cons y t ih =>
    rcases List.pairwise_cons.mp hl with ⟨hy, ht⟩
    by_cases h : le x y = true
    · rw [insertLe, if_pos h]
      refine List.pairwise_cons.mpr ⟨?_, hl⟩
      intro z hz
      rcases List.mem_cons.mp hz with rfl | hz2
      · exact h
      · exact htrans x y z h (hy z hz2)
    · rw [insertLe, if_neg h]
      have hxyf : le x y = false := by
        rwa [Bool.not_eq_true] at h
      have hyx : le y x = true := by
        simpa [hxyf] using htot x y
      refine List.pairwise_cons.mpr ⟨?_, ih ht⟩
      intro z hz
      have hz2 := (insertLe_perm le x t).mem_iff.mp hz
      rcases List.mem_cons.mp hz2 with rfl | hz3
      · exact hyx
      · exact hy z hz3

theorem sortLe_pairwise {α : Type} {le : α → α → Bool}
    (htot : ∀ a b, (le a b || le b a) = true)
    (htrans : ∀ a b c, le a b = true → le b c = true → le a c = true)
    (l : List α) : (sortLe le l).Pairwise (fun a b => le a b = true) := by
  induction l with
  | nil => simp [sortLe]
  | cons x t ih => exact insertLe_pairwise htot htrans x ih

theorem takeWhile_append_not {p : Char → Bool} {l : List Char}
    (hl : ∀ x ∈ l, p x = true) {c : Char} (hc : p c = false) (r : List Char) :
    (l ++ c :: r).takeWhile p = l ∧ (l ++ c :: r).dropWhile p = c :: r := by
  induction l with
  | nil => simp [List.takeWhile_cons, List.dropWhile_cons, hc]
  | cons a t ih =>
    have ha : p a = true := hl a (List.mem_cons_self a t)
    have ht : ∀ x ∈ t, p x = true := fun x hx => hl x (List.mem_cons_of_mem a hx)
    rcases ih ht with ⟨h1, h2⟩
    simp [List.takeWhile_cons, List.dropWhile_cons, ha, h1, h2]

theorem splitFirst_append {a : GoStr} {c : Char} (b : GoStr) (h : c ∉ a) :
    splitFirst (a ++ c :: b) c = some (a, b) := by
  induction a with
  | nil => simp [splitFirst]
  | cons x t ih =>
    simp only [List.mem_cons, not_or] at h
    have hx : ¬ x = c := fun hh => h.1 hh.symm
    simp [splitFirst, hx, ih h.2]

theorem replaceFirstChar_append {a : GoStr} {c : Char} (d : Char) (b : GoStr) (h : c ∉ a) :
    replaceFirstChar (a ++ c :: b) c d = a ++ d :: b := by
  induction a with
  | nil => simp [replaceFirstChar]
  | cons x t ih =>
    simp only [List.mem_cons, not_or] at h
    have hx : ¬ x = c := fun hh => h.1 hh.symm
    simp [replaceFirstChar, hx, ih h.2]

theorem not_underscore_of_digits {a : GoStr} (h : ∀ x ∈ a, Char.isDigit x = true) :
    '_' ∉ a := by
  intro hm
  have hd := h _ hm
  have : Char.isDigit '_' = false := by decide
  rw [this] at hd
  exact Bool.false_ne_true hd

theorem dropPrefix_v (rest : GoStr) :
    dropPrefixL ('v' :: rest) (("v").toList) = rest := by
  simp [dropPrefixL, List.isPrefixOf]

theorem matchVersionFile_pair {a b : GoStr}
    (hla : ∀ x ∈ a, Char.isDigit x = true) (ha0 : a ≠ [])
    (hlb : ∀ x ∈ b, Char.isDigit x = true) (hb0 : b ≠ []) :
    matchVersionFile ('v' :: (a ++ '_' :: (b ++ ('.' :: 'm' :: 'd' :: [])))) =
      some ('v' :: (a ++ '_' :: b)) := by
  obtain ⟨hta, hda⟩ :=
    takeWhile_append_not hla (c := '_') (by decide) (b ++ ('.' :: 'm' :: 'd' :: []))
  obtain ⟨htb, hdb⟩ := takeWhile_append_not hlb (c := '.') (by decide) ('m' :: 'd' :: [])
  have hae : a.isEmpty = false := by cases a with
    | nil => exact absurd rfl ha0
    | cons _ _ => rfl
  have hbe : b.isEmpty = false := by cases b with
    | nil => exact absurd rfl hb0
    | cons _ _ => rfl
  simp only [matchVersionFile, if_pos rfl]
  rw [hta, hda, hae]
  simp only [Bool.false_eq_true, if_false, if_true]
  rw [htb, hdb, hbe]
  simp only [Bool.false_eq_true, if_false, if_pos rfl]
  rfl

theorem versionNumber_pair {a b : GoStr} (h : '_' ∉ a) :
    versionNumber ('v' :: (a ++ '_' :: b)) = atoiNat a * 10000 + atoiNat b := by
  simp only [versionNumber, splitN2, dropPrefix_v, splitFirst_append b h]

theorem displayOf_pair {a b : GoStr} (h : '_' ∉ a) :
    displayOf ('v' :: (a ++ '_' :: b)) = a ++ '.' :: b := by
  unfold displayOf
  rw [dropPrefix_v, replaceFirstChar_append '.' b h]

/-- C3 amended: for every listing of well-formed version filenames of the
shape v-major-underscore-minor with the md extension (the only extension the
filter accepts) and pairwise-distinct ordinals, Discover returns exactly one
descriptor with id "v<major>_<minor>" and display "<major>.<minor>" per
entry, and the sequence is strictly descending in the numeric (major, minor)
order. -/
theorem discoverVersions_spec (ps : List (GoStr × GoStr))
    (hdig : ∀ p ∈ ps, p.1 ≠ [] ∧ (∀ x ∈ p.1, Char.isDigit x = true) ∧
                       p.2 ≠ [] ∧ (∀ x ∈ p.2, Char.isDigit x = true))
    (hnd : List.Pairwise (fun p q => pairNum p ≠ pairNum q) ps) :
    (discoverVersions (ps.map entryOfPair)).Perm (ps.map descOfPair) ∧
    List.Pairwise (fun x y => versionNumber y.id < versionNumber x.id)
      (discoverVersions (ps.map entryOfPair)) := by
  have hfm : (ps.map entryOfPair).filterMap matchVersionFile =
      ps.map (fun p => 'v' :: (p.1 ++ '_' :: p.2)) := by
    rw [List.filterMap_map]
    have hcong : ∀ p ∈ ps, (matchVersionFile ∘ entryOfPair) p =
        (some ∘ fun p : GoStr × GoStr => 'v' :: (p.1 ++ '_' :: p.2)) p := by
      intro p hp
      obtain ⟨h1, h2, h3, h4⟩ := hdig p hp
      exact matchVersionFile_pair h2 h1 h4 h3
    rw [List.filterMap_congr hcong, List.filterMap_eq_map]
  have hpre : ((ps.map entryOfPair).filterMap matchVersionFile).map
        (fun id => ({ id := id, display := displayOf id } : VersionInfo)) =
      ps.map descOfPair := by
    rw [hfm, List.map_map]
    refine List.map_congr_left (fun p hp => ?_)
    obtain ⟨h1, h2, h3, h4⟩ := hdig p hp
    have hu : '_' ∉ p.1 := not_underscore_of_digits h2
    simp [descOfPair, Function.comp, displayOf_pair hu]
  have hdv : discoverVersions (ps.map entryOfPair) = sortLe versionLe (ps.map descOfPair) := by
    rw [discoverVersions, hpre]
  have htot : ∀ x y : VersionInfo, (versionLe x y || versionLe y x) = true := by
    intro x y
    simp only [versionLe, Bool.or_eq_true, decide_eq_true_eq]
    omega
  have htrans : ∀ x y z : VersionInfo, versionLe x y = true → versionLe y z = true →
      versionLe x z = true := by
    intro x y z
    simp only [versionLe, decide_eq_true_eq]
    omega
  have hperm : (discoverVersions (ps.map entryOfPair)).Perm (ps.map descOfPair) := by
    rw [hdv]
    exact sortLe_perm _ _
  refine ⟨hperm, ?_⟩
  have hle : List.Pairwise (fun x y => versionLe x y = true)
      (discoverVersions (ps.map entryOfPair)) := by
    rw [hdv]
    exact sortLe_pairwise htot htrans _
  have hnum : ∀ p ∈ ps, versionNumber (descOfPair p).id = pairNum p := by
    intro p hp
    obtain ⟨h1, h2, h3, h4⟩ := hdig p hp
    have hu : '_' ∉ p.1 := not_underscore_of_digits h2
    simpa [descOfPair, pairNum] using versionNumber_pair (b := p.2) hu
  have hnemap : List.Pairwise
      (fun x y : VersionInfo => versionNumber x.id ≠ versionNumber y.id)
      (ps.map descOfPair) := by
    rw [List.pairwise_map]
    refine hnd.imp_of_mem ?_
    intro p q hp hq hne
    rw [hnum p hp, hnum q hq]
    exact hne
  have hnesorted : List.Pairwise
      (fun x y : VersionInfo => versionNumber x.id ≠ versionNumber y.id)
      (discoverVersions (ps.map entryOfPair)) :=
    (hperm.pairwise_iff (fun h => Ne.symm h)).mpr hnemap
  refine (hle.and hnesorted).imp ?_
  intro a b h
  obtain ⟨h1, h2⟩ := h
  simp only [versionLe, decide_eq_true_eq] at h1
  omega

theorem discoverVersions_spec_witness :
    (discoverVersions ([((("1").toList), (("10").toList)),
        ((("1").toList), (("9").toList))].map entryOfPair)).Perm
      ([((("1").toList), (("10").toList)),
        ((("1").toList), (("9").toList))].map descOfPair) ∧
    List.Pairwise (fun x y => versionNumber y.id < versionNumber x.id)
      (discoverVersions ([((("1").toList), (("10").toList)),
          ((("1").toList), (("9").toList))].map entryOfPair)) :=
  discoverVersions_spec
    [((("1").toList), (("10").toList)), ((("1").toList), (("9").toList))]
    (by decide) (by decide)

theorem lookupA_cons {κ β : Type} [DecidableEq κ] (q : κ × β) (t : List (κ × β)) (k : κ) :
    lookupA (q :: t) k = if q.1 = k then some q.2 else lookupA t k := by
  by_cases h : q.1 = k
  · simp [lookupA, List.find?_cons_of_pos, h]
  · rw [if_neg h]
    unfold lookupA
    rw [List.find?_cons_of_neg _ (by simpa using h)]

theorem lookupA_append {κ β : Type} [DecidableEq κ] (m1 m2 : List (κ × β)) (k : κ) :
    lookupA (m1 ++ m2) k =
      match lookupA m1 k with
      | some b => some b
      | none => lookupA m2 k := by
  unfold lookupA
  rw [List.find?_append]
  cases h : m1.find? (fun p => decide (p.1 = k)) <;> simp [Option.or]

theorem lookupA_updateA_self {κ β : Type} [DecidableEq κ] (m : List (κ × β)) (k : κ)
    (f : β → β) : lookupA (updateA m k f) k = (lookupA m k).map f := by
  induction m with
  | nil => rfl
  | cons q t ih =>
    by_cases h : q.1 = k
    · simp [updateA, lookupA_cons, h] at ih ⊢
    · simp only [updateA, List.map_cons, if_neg h, lookupA_cons] at ih ⊢
      exact ih

theorem lookupA_updateA_ne {κ β : Type} [DecidableEq κ] (m : List (κ × β)) (k k2 : κ)
    (f : β → β) (hne : k2 ≠ k) : lookupA (updateA m k f) k2 = lookupA m k2 := by
  induction m with
  | nil => rfl
  | cons q t ih =>
    by_cases h : q.1 = k
    · have h2 : ¬ q.1 = k2 := fun hh => hne ((h.symm.trans hh).symm)
      simp only [updateA, List.map_cons, if_pos h, lookupA_cons] at ih ⊢
      rw [if_neg h2, if_neg h2, ih]
    · simp only [updateA, List.map_cons, if_neg h, lookupA_cons] at ih ⊢
      by_cases h2 : q.1 = k2
      · rw [if_pos h2, if_pos h2]
      · rw [if_neg h2, if_neg h2, ih]

theorem updateA_map_fst {κ β : Type} [DecidableEq κ] (m : List (κ × β)) (k : κ)
    (f : β → β) : (updateA m k f).map (fun p => p.1) = m.map (fun p => p.1) := by
  induction m with
  | nil => rfl
  | cons q t ih =>
    simp only [updateA, List.map_cons, List.map_map] at ih ⊢
    rw [ih]
    by_cases h : q.1 = k <;> simp [h]

theorem lookupA_eq_none_iff {κ β : Type} [DecidableEq κ] (m : List (κ × β)) (k : κ) :
    lookupA m k = none ↔ k ∉ m.map (fun p => p.1) := by
  induction m with
  | nil => simp [lookupA]
  | cons q t ih =>
    rw [lookupA_cons, List.map_cons]
    by_cases h : q.1 = k
    · simp [h]
    · rw [if_neg h, ih, List.mem_cons]
      constructor
      · intro hn hor
        rcases hor with hh | hh
        · exact h hh.symm
        · exact hn hh
      · intro hn hh
        exact hn (Or.inr hh)

theorem mem_lookupA_of_nodup {κ β : Type} [DecidableEq κ] (m : List (κ × β))
    (hnd : (m.map (fun p => p.1)).Nodup) {k : κ} {b : β} (hm : (k, b) ∈ m) :
    lookupA m k = some b := by
  induction m with
  | nil => cases hm
  | cons q t ih =>
    rw [List.map_cons, List.nodup_cons] at hnd
    rw [lookupA_cons]
    rcases List.mem_cons.mp hm with rfl | hm2
    · rw [if_pos rfl]
    · by_cases h : q.1 = k
      · exfalso
        apply hnd.1
        rw [h]
        exact List.mem_map.mpr ⟨(k, b), hm2, rfl⟩
      · rw [if_neg h]
        exact ih hnd.2 hm2

theorem lookupA_some_mem {κ β : Type} [DecidableEq κ] {m : List (κ × β)} {k : κ} {b : β}
    (h : lookupA m k = some b) : (k, b) ∈ m := by
  induction m with
  | nil => cases h
  | cons q t ih =>
    rw [lookupA_cons] at h
    by_cases hk : q.1 = k
    · rw [if_pos hk] at h
      injection h with hb
      subst hb
      rw [← hk]
      exact List.mem_cons_self _ _
    · rw [if_neg hk] at h
      exact List.mem_cons_of_mem _ (ih h)

theorem lookupA_aggStep {κ α β : Type} [DecidableEq κ]
    (key : α → κ) (pred : α → Bool) (init : α → β) (upd : β → α → β)
    (m : List (κ × β)) (x : α) (k : κ) :
    lookupA (aggStep key pred init upd m x) k =
      if pred x && decide (key x = k) then aggFold init upd (lookupA m k) x
      else lookupA m k := by
  by_cases hp : pred x = true
  · by_cases hk : key x = k
    · subst hk
      have hcond : (pred x && decide (key x = key x)) = true := by simp [hp]
      rw [if_pos hcond]
      cases hl : lookupA m (key x) with
      | some b =>
        simp only [aggStep, hp, if_true, hl]
        rw [lookupA_updateA_self, hl]
        rfl
      | none =>
        simp only [aggStep, hp, if_true, hl]
        rw [lookupA_append, hl, lookupA_cons]
        simp [aggFold]
    · rw [if_neg (show ¬ ((pred x && decide (key x = k)) = true) by simp [hk])]
      cases hl : lookupA m (key x) with
      | some b =>
        simp only [aggStep, hp, if_true, hl]
        exact lookupA_updateA_ne m (key x) k _ (fun hh => hk hh.symm)
      | none =>
        simp only [aggStep, hp, if_true, hl]
        rw [lookupA_append, lookupA_cons, if_neg hk]
        cases hmk : lookupA m k <;> rfl
  · have hp2 : pred x = false := by rwa [Bool.not_eq_true] at hp
    simp [aggStep, hp2]

theorem lookupA_aggStep_foldl {κ α β : Type} [DecidableEq κ]
    (key : α → κ) (pred : α → Bool) (init : α → β) (upd : β → α → β)
    (xs : List α) (m : List (κ × β)) (k : κ) :
    lookupA (xs.foldl (aggStep key pred init upd) m) k =
      (xs.filter (fun x => pred x && decide (key x = k))).foldl
        (aggFold init upd) (lookupA m k) := by
  induction xs generalizing m with
  | nil => rfl
  | cons x t ih =>
    rw [List.foldl_cons, ih, List.filter_cons]
    by_cases hc : (pred x && decide (key x = k)) = true
    · rw [if_pos hc, List.foldl_cons, lookupA_aggStep, if_pos hc]
    · rw [if_neg hc, lookupA_aggStep, if_neg hc]

theorem aggFold_foldl_some {α β : Type} (init : α → β) (upd : β → α → β)
    (l : List α) (b : β) :
    l.foldl (aggFold init upd) (some b) = some (l.foldl upd b) := by
  induction l generalizing b with
  | nil => rfl
  | cons x t ih =>
    rw [List.foldl_cons, List.foldl_cons]
    exact ih (upd b x)

theorem aggFold_foldl_none_cons {α β : Type} (init : α → β) (upd : β → α → β)
    (x : α) (t : List α) :
    (x :: t).foldl (aggFold init upd) none = some (t.foldl upd (init x)) := by
  rw [List.foldl_cons]
  exact aggFold_foldl_some init upd t (init x)

theorem aggStep_foldl_keys_nodup {κ α β : Type} [DecidableEq κ]
    (key : α → κ) (pred : α → Bool) (init : α → β) (upd : β → α → β)
    (xs : List α) (m : List (κ × β)) (hm : (m.map (fun p => p.1)).Nodup) :
    ((xs.foldl (aggStep key pred init upd) m).map (fun p => p.1)).Nodup := by
  induction xs generalizing m with
  | nil => exact hm
  | cons x t ih =>
    rw [List.foldl_cons]
    refine ih _ ?_
    by_cases hp : pred x = true
    · cases hl : lookupA m (key x) with
      | some b =>
        simp only [aggStep, hp, if_true, hl]
        rw [updateA_map_fst]
        exact hm
      | none =>
        simp only [aggStep, hp, if_true, hl]
        rw [List.map_append]
        have hnotin : key x ∉ m.map (fun p => p.1) := (lookupA_eq_none_iff m (key x)).mp hl
        refine List.Nodup.append hm (List.nodup_singleton _) ?_
        intro a ha hb
        rw [List.map_singleton, List.mem_singleton] at hb
        rw [hb] at ha
        exact hnotin ha
    · have hp2 : pred x = false := by rwa [Bool.not_eq_true] at hp
      simp only [aggStep, hp2, Bool.false_eq_true, if_false]
      exact hm

theorem aggStep_foldl_inv {κ α β : Type} [DecidableEq κ]
    (key : α → κ) (pred : α → Bool) (init : α → β) (upd : β → α → β)
    (P : κ → β → Prop)
    (hinit : ∀ x, pred x = true → P (key x) (init x))
    (hupd : ∀ b x, pred x = true → P (key x) b → P (key x) (upd b x))
    (xs : List α) (m : List (κ × β)) (hm : ∀ e ∈ m, P e.1 e.2) :
    ∀ e ∈ xs.foldl (aggStep key pred init upd) m, P e.1 e.2 := by
  induction xs generalizing m with
  | nil => exact hm
  | cons x t ih =>
    rw [List.foldl_cons]
    refine ih _ ?_
    intro e he
    by_cases hp : pred x = true
    · cases hl : lookupA m (key x) with
      | some b =>
        simp only [aggStep, hp, if_true, hl] at he
        rcases List.mem_map.mp he with ⟨p, hpmem, hpe⟩
        by_cases hpk : p.1 = key x
        · rw [if_pos hpk] at hpe
          subst hpe
          have := hm p hpmem
          rw [hpk] at this ⊢
          exact hupd p.2 x hp this
        · rw [if_neg hpk] at hpe
          subst hpe
          exact hm p hpmem
      | none =>
        simp only [aggStep, hp, if_true, hl] at he
        rcases List.mem_append.mp he with hm2 | hs
        · exact hm e hm2
        · rw [List.mem_singleton] at hs
          subst hs
          exact hinit x hp
    · have hp2 : pred x = false := by rwa [Bool.not_eq_true] at hp
      simp only [aggStep, hp2, Bool.false_eq_true, if_false] at he
      exact hm e he

theorem searchUpd_foldl (l : List Contributor) (a : AggEntry) :
    (l.foldl searchUpd a).totalPRs = a.totalPRs + (l.map (fun c => c.prs.length)).sum ∧
    (l.foldl searchUpd a).releaseCount = a.releaseCount + l.length ∧
    (l.foldl searchUpd a).githubUser = a.githubUser := by
  induction l generalizing a with
  | nil => simp
  | cons c t ih =>
    rw [List.foldl_cons]
    obtain ⟨h1, h2, h3⟩ := ih (searchUpd a c)
    refine ⟨?_, ?_, ?_⟩
    · rw [h1, List.map_cons, List.sum_cons]
      simp [searchUpd]
      omega
    · rw [h2, List.length_cons]
      simp [searchUpd]
      omega
    · rw [h3]
      rfl

/-- C5 counterexample: a release that lists the same handle twice makes
SearchContributors report releaseCount 2 for that handle although only one
cached release contains it - the loop increments the release counter once
per contributor instance, not once per release. -/
theorem search_duplicate_releaseCount_counterexample :
    (SearchContributors [((("v1_1").toList), relDupAlice)] (("alice").toList)).map
      (fun r => (r.totalPRs, r.releaseCount)) = [(2, 2)] ∧
    [((("v1_1").toList), relDupAlice)].length = 1 := by
  refine ⟨by decide, rfl⟩

/-- C5 amended: the empty query returns the empty result; for a non-empty
query, the result holds exactly one entry per distinct lower-cased handle
containing the lower-cased query, with totalPRs the sum of the PR counts of
all matching contributor instances and releaseCount the number of matching
contributor instances across cached releases (entries are merged by
lower-cased handle, but a handle repeated inside one release is counted once
per instance, not once per release), sorted descending by totalPRs. -/
theorem SearchContributors_spec (cache : Cache) (query : GoStr) :
    SearchContributors cache [] = [] ∧
    (toLowerStr query ≠ [] →
      ((SearchContributors cache query).map (fun r => toLowerStr r.githubUser)).Nodup ∧
      (∀ k : GoStr,
        (∃ r ∈ SearchContributors cache query, toLowerStr r.githubUser = k) ↔
        (allContribs cache).filter
          (fun c => searchPred (toLowerStr query) c && decide (searchKey c = k)) ≠ []) ∧
      (∀ r ∈ SearchContributors cache query,
        r.totalPRs = (((allContribs cache).filter
            (fun c => searchPred (toLowerStr query) c &&
              decide (searchKey c = toLowerStr r.githubUser))).map
          (fun c => c.prs.length)).sum ∧
        r.releaseCount = ((allContribs cache).filter
            (fun c => searchPred (toLowerStr query) c &&
              decide (searchKey c = toLowerStr r.githubUser))).length) ∧
      (SearchContributors cache query).Pairwise (fun a b => b.totalPRs ≤ a.totalPRs)) := by
  constructor
  · rfl
  intro hq
  have hne : (toLowerStr query).isEmpty = false := by
    cases hql : toLowerStr query with
    | nil => exact absurd hql hq
    | cons _ _ => rfl
  have hS : SearchContributors cache query =
      sortLe searchLe
        (((allContribs cache).foldl
          (aggStep searchKey (searchPred (toLowerStr query)) searchInit searchUpd) []).map
          (fun p => resultOfEntry p.2)) := by
    simp only [SearchContributors, hne, Bool.false_eq_true, if_false]
  have hnd : (((allContribs cache).foldl
      (aggStep searchKey (searchPred (toLowerStr query)) searchInit searchUpd) []).map
        (fun p => p.1)).Nodup :=
    aggStep_foldl_keys_nodup _ _ _ _ _ [] (by simp)
  have hinv : ∀ e ∈ (allContribs cache).foldl
      (aggStep searchKey (searchPred (toLowerStr query)) searchInit searchUpd) [],
      toLowerStr e.2.githubUser = e.1 := by
    refine aggStep_foldl_inv searchKey (searchPred (toLowerStr query)) searchInit searchUpd
      (fun k a => toLowerStr a.githubUser = k) ?_ ?_ (allContribs cache) [] (by simp)
    · intro c _
      rfl
    · intro a c _ hP
      exact hP
  have hlook : ∀ k, lookupA ((allContribs cache).foldl
      (aggStep searchKey (searchPred (toLowerStr query)) searchInit searchUpd) []) k =
      ((allContribs cache).filter
        (fun c => searchPred (toLowerStr query) c && decide (searchKey c = k))).foldl
        (aggFold searchInit searchUpd) none := by
    intro k
    exact lookupA_aggStep_foldl searchKey (searchPred (toLowerStr query)) searchInit searchUpd
      (allContribs cache) [] k
  have hmem : ∀ r, r ∈ SearchContributors cache query ↔
      ∃ e ∈ (allContribs cache).foldl
        (aggStep searchKey (searchPred (toLowerStr query)) searchInit searchUpd) [],
        resultOfEntry e.2 = r := by
    intro r
    rw [hS, List.Perm.mem_iff (sortLe_perm _ _), List.mem_map]
  refine ⟨?_, ?_, ?_, ?_⟩
  · have hmapeq : (((allContribs cache).foldl
        (aggStep searchKey (searchPred (toLowerStr query)) searchInit searchUpd) []).map
          ((fun r => toLowerStr r.githubUser) ∘ (fun p => resultOfEntry p.2))) =
      (((allContribs cache).foldl
        (aggStep searchKey (searchPred (toLowerStr query)) searchInit searchUpd) []).map
          (fun p => p.1)) :=
      List.map_congr_left (fun e he => hinv e he)
    have hp1 : ((SearchContributors cache query).map (fun r => toLowerStr r.githubUser)).Perm
        (((allContribs cache).foldl
          (aggStep searchKey (searchPred (toLowerStr query)) searchInit searchUpd) []).map
            (fun p => p.1)) := by
      rw [hS]
      refine (List.Perm.map _ (sortLe_perm _ _)).trans ?_
      rw [List.map_map, hmapeq]
    exact hp1.nodup_iff.mpr hnd
  · intro k
    constructor
    · rintro ⟨r, hr, hrk⟩
      rcases (hmem r).mp hr with ⟨e, he, hre⟩
      have hek : e.1 = k := by
        rw [← hrk, ← hre]
        exact (hinv e he).symm
      have hsome : lookupA ((allContribs cache).foldl
          (aggStep searchKey (searchPred (toLowerStr query)) searchInit searchUpd) []) k =
          some e.2 := by
        rw [← hek]
        exact mem_lookupA_of_nodup _ hnd he
      rw [hlook k] at hsome
      intro hnil
      rw [hnil] at hsome
      simp at hsome
    · intro hnil
      cases hf : (allContribs cache).filter
          (fun c => searchPred (toLowerStr query) c && decide (searchKey c = k)) with
      | nil => exact absurd hf hnil
      | cons x t =>
        have hsome : lookupA ((allContribs cache).foldl
            (aggStep searchKey (searchPred (toLowerStr query)) searchInit searchUpd) []) k =
            some (t.foldl searchUpd (searchInit x)) := by
          rw [hlook k, hf]
          exact aggFold_foldl_none_cons _ _ _ _
        have hmem2 := lookupA_some_mem hsome
        refine ⟨resultOfEntry (t.foldl searchUpd (searchInit x)), ?_, ?_⟩
        · exact (hmem _).mpr ⟨(k, t.foldl searchUpd (searchInit x)), hmem2, rfl⟩
        · exact hinv _ hmem2
  · intro r hr
    rcases (hmem r).mp hr with ⟨e, he, hre⟩
    have hek : toLowerStr r.githubUser = e.1 := by
      rw [← hre]
      exact hinv e he
    have hsome : lookupA ((allContribs cache).foldl
        (aggStep searchKey (searchPred (toLowerStr query)) searchInit searchUpd) []) e.1 =
        some e.2 := mem_lookupA_of_nodup _ hnd he
    rw [hlook e.1] at hsome
    cases hf : (allContribs cache).filter
        (fun c => searchPred (toLowerStr query) c && decide (searchKey c = e.1)) with
    | nil =>
      rw [hf] at hsome
      simp at hsome
    | cons x t =>
      rw [hf, aggFold_foldl_none_cons] at hsome
      injection hsome with hval
      obtain ⟨ht1, ht2, _⟩ := searchUpd_foldl t (searchInit x)
      rw [hek, hf]
      constructor
      · rw [← hre]
        have hrt : (resultOfEntry e.2).totalPRs = e.2.totalPRs := rfl
        rw [hrt, ← hval, ht1, List.map_cons, List.sum_cons]
        rfl
      · rw [← hre]
        have hrc : (resultOfEntry e.2).releaseCount = e.2.releaseCount := rfl
        rw [hrc, ← hval, ht2, List.length_cons]
        have hri : (searchInit x).releaseCount = 1 := rfl
        rw [hri]
        omega
  · rw [hS]
    have htot : ∀ a b : ContributorSearchResult, (searchLe a b || searchLe b a) = true := by
      intro a b
      simp only [searchLe, Bool.or_eq_true, decide_eq_true_eq]
      omega
    have htrans : ∀ a b c : ContributorSearchResult,
        searchLe a b = true → searchLe b c = true → searchLe a c = true := by
      intro a b c
      simp only [searchLe, decide_eq_true_eq]
      omega
    exact (sortLe_pairwise htot htrans _).imp
      (fun h => by simpa [searchLe, decide_eq_true_eq] using h)

theorem insertSet_fold_nodup (l : List GoStr) (s : List GoStr) (hs : s.Nodup) :
    (l.foldl insertSet s).Nodup := by
  induction l generalizing s with
  | nil => exact hs
  | cons v t ih =>
    rw [List.foldl_cons]
    refine ih _ ?_
    unfold insertSet
    by_cases h : v ∈ s
    · rw [if_pos h]
      exact hs
    · rw [if_neg h]
      refine List.Nodup.append hs (List.nodup_singleton _) ?_
      intro a ha hb
      rw [List.mem_singleton] at hb
      rw [hb] at ha
      exact h ha

theorem insertSet_fold_mem (l : List GoStr) (s : List GoStr) (x : GoStr) :
    x ∈ l.foldl insertSet s ↔ x ∈ s ∨ x ∈ l := by
  induction l generalizing s with
  | nil => simp
  | cons v t ih =>
    rw [List.foldl_cons, ih]
    unfold insertSet
    by_cases h : v ∈ s
    · rw [if_pos h]
      constructor
      · rintro (hx | hx)
        · exact Or.inl hx
        · exact Or.inr (List.mem_cons_of_mem _ hx)
      · rintro (hx | hx)
        · exact Or.inl hx
        · rcases List.mem_cons.mp hx with rfl | hx2
          · exact Or.inl h
          · exact Or.inr hx2
    · rw [if_neg h]
      rw [List.mem_append, List.mem_singleton]
      constructor
      · rintro ((hx | hx) | hx)
        · exact Or.inl hx
        · exact Or.inr (List.mem_cons.mpr (Or.inl hx))
        · exact Or.inr (List.mem_cons_of_mem _ hx)
      · rintro (hx | hx)
        · exact Or.inl (Or.inl hx)
        · rcases List.mem_cons.mp hx with rfl | hx2
          · exact Or.inl (Or.inr rfl)
          · exact Or.inr hx2

theorem insertSet_fold_length (l : List GoStr) :
    (l.foldl insertSet []).length = l.toFinset.card := by
  have hnd := insertSet_fold_nodup l [] List.nodup_nil
  rw [← List.toFinset_card_of_nodup hnd]
  congr 1
  ext x
  rw [List.mem_toFinset, List.mem_toFinset, insertSet_fold_mem]
  simp

theorem lbUpd_foldl (l : List (GoStr × Contributor)) (s : UserStats) :
    (l.foldl lbUpd s).prCount = s.prCount + (l.map (fun p => p.2.prs.length)).sum ∧
    (l.foldl lbUpd s).releases = l.foldl (fun acc p => insertSet acc p.1) s.releases ∧
    (l.foldl lbUpd s).githubUser = s.githubUser := by
  induction l generalizing s with
  | nil => simp
  | cons p t ih =>
    rw [List.foldl_cons]
    obtain ⟨h1, h2, h3⟩ := ih (lbUpd s p)
    refine ⟨?_, ?_, ?_⟩
    · rw [h1, List.map_cons, List.sum_cons]
      have : (lbUpd s p).prCount = s.prCount + p.2.prs.length := rfl
      rw [this]
      omega
    · rw [h2, List.foldl_cons]
      rfl
    · rw [h3]
      rfl

theorem assignRanks_length (i : Nat) (l : List LeaderboardEntry) :
    (assignRanks i l).length = l.length := by
  induction l generalizing i with
  | nil => rfl
  | cons e t ih =>
    rw [assignRanks, List.length_cons, List.length_cons, ih]

theorem assignRanks_map_rank (i : Nat) (l : List LeaderboardEntry) :
    (assignRanks i l).map (fun e => e.rank) = List.range' (i + 1) l.length := by
  induction l generalizing i with
  | nil => rfl
  | cons e t ih =>
    rw [assignRanks, List.map_cons, List.length_cons, List.range'_succ, ih]

theorem assignRanks_mem {e2 : LeaderboardEntry} {i : Nat} {l : List LeaderboardEntry}
    (h : e2 ∈ assignRanks i l) : ∃ e ∈ l, ∃ j, e2 = { e with rank := j } := by
  induction l generalizing i with
  | nil => cases h
  | cons e t ih =>
    rw [assignRanks] at h
    rcases List.mem_cons.mp h with rfl | h2
    · exact ⟨e, List.mem_cons_self _ _, i + 1, rfl⟩
    · rcases ih h2 with ⟨e3, he3, j, hj⟩
      exact ⟨e3, List.mem_cons_of_mem _ he3, j, hj⟩

theorem assignRanks_pairwise {R : LeaderboardEntry → LeaderboardEntry → Prop}
    (hR : ∀ a b : LeaderboardEntry, ∀ i j : Nat,
      R a b → R { a with rank := i } { b with rank := j })
    (i : Nat) {l : List LeaderboardEntry} (h : l.Pairwise R) :
    (assignRanks i l).Pairwise R := by
  induction l generalizing i with
  | nil => exact List.Pairwise.nil
  | cons e t ih =>
    rcases List.pairwise_cons.mp h with ⟨he, ht⟩
    rw [assignRanks]
    refine List.pairwise_cons.mpr ⟨?_, ih (i + 1) ht⟩
    intro e2 he2
    rcases assignRanks_mem he2 with ⟨e3, he3, j, hj⟩
    rw [hj]
    exact hR e e3 (i + 1) j (he e3 he3)

/-- C6 counterexample: a release carrying the two case variants "Alice" and
"alice" of one handle produces two leaderboard entries, because the
aggregation map of LeaderboardHandler is keyed by the handle exactly as
written, with no case folding. -/
theorem leaderboard_case_sensitive_counterexample :
    (LeaderboardCompute [{ id := ("v1_1").toList, display := ("1.1").toList }]
        [((("v1_1").toList), relTwoCases)] (("prs").toList)).length = 2 ∧
    relTwoCases.contributors.map (fun c => toLowerStr c.githubUser) =
      [("alice").toList, ("alice").toList] := by
  refine ⟨by decide, by decide⟩

/-- C6 amended: over the snapshot of cached releases resolved through the
catalog, Leaderboard("prs", 50) aggregates per handle compared exactly
(case-sensitively, the statsMap key being the literal handle) the total PR
count and the number of distinct releases the handle appears in, sorts by
total PR count descending with ties broken by distinct release count
descending, truncates to 50 entries, and assigns ranks 1..min(N,50) with no
gaps. -/
theorem Leaderboard_prs_spec (versions : List VersionInfo) (cache : Cache) :
    ((((lbAgg versions cache).map (fun p => entryOfStats p.2)).map
      (fun e => e.githubUser)).Nodup) ∧
    (∀ h : GoStr,
      (∃ e ∈ (lbAgg versions cache).map (fun p => entryOfStats p.2), e.githubUser = h) ↔
      (lbPairs versions cache).filter (fun p => decide (lbKey p = h)) ≠ []) ∧
    (∀ e ∈ (lbAgg versions cache).map (fun p => entryOfStats p.2),
      e.prCount = (((lbPairs versions cache).filter
          (fun p => decide (lbKey p = e.githubUser))).map
        (fun p => p.2.prs.length)).sum ∧
      e.releases = (((lbPairs versions cache).filter
          (fun p => decide (lbKey p = e.githubUser))).map (fun p => p.1)).toFinset.card) ∧
    ((LeaderboardCompute versions cache (("prs").toList)).map (fun e => e.rank) =
      List.range' 1 (LeaderboardCompute versions cache (("prs").toList)).length) ∧
    ((LeaderboardCompute versions cache (("prs").toList)).length =
      min 50 ((lbAgg versions cache).map (fun p => entryOfStats p.2)).length) ∧
    (LeaderboardCompute versions cache (("prs").toList)).Pairwise
      (fun a b => b.prCount < a.prCount ∨ (b.prCount = a.prCount ∧ b.releases ≤ a.releases)) := by
  have hfeq : ∀ h : GoStr, (lbPairs versions cache).filter
      (fun p => (fun _ => true) p && decide (lbKey p = h)) =
      (lbPairs versions cache).filter (fun p => decide (lbKey p = h)) := by
    intro h
    exact List.filter_congr (fun x _ => by simp)
  have hnd : ((lbAgg versions cache).map (fun p => p.1)).Nodup :=
    aggStep_foldl_keys_nodup _ _ _ _ _ [] (by simp)
  have hinv : ∀ e ∈ lbAgg versions cache, e.2.githubUser = e.1 := by
    refine aggStep_foldl_inv lbKey (fun _ => true) lbInit lbUpd
      (fun k s => s.githubUser = k) ?_ ?_ (lbPairs versions cache) [] (by simp)
    · intro p _
      rfl
    · intro s p _ hP
      exact hP
  have hlook : ∀ k, lookupA (lbAgg versions cache) k =
      ((lbPairs versions cache).filter (fun p => decide (lbKey p = k))).foldl
        (aggFold lbInit lbUpd) none := by
    intro k
    rw [lbAgg, lookupA_aggStep_foldl lbKey (fun _ => true) lbInit lbUpd
      (lbPairs versions cache) [] k, hfeq k]
    rfl
  refine ⟨?_, ?_, ?_, ?_, ?_, ?_⟩
  · have hmapeq : ((lbAgg versions cache).map
        ((fun e => e.githubUser) ∘ (fun p => entryOfStats p.2))) =
      ((lbAgg versions cache).map (fun p => p.1)) :=
      List.map_congr_left (fun e he => hinv e he)
    rw [List.map_map, hmapeq]
    exact hnd
  · intro k
    constructor
    · rintro ⟨e, he, hek⟩
      rcases List.mem_map.mp he with ⟨q, hq, hqe⟩
      have hqk : q.1 = k := by
        rw [← hek, ← hqe]
        exact (hinv q hq).symm
      have hsome : lookupA (lbAgg versions cache) k = some q.2 := by
        rw [← hqk]
        exact mem_lookupA_of_nodup _ hnd hq
      rw [hlook k] at hsome
      intro hnil
      rw [hnil] at hsome
      simp at hsome
    · intro hnil
      cases hf : (lbPairs versions cache).filter (fun p => decide (lbKey p = k)) with
      | nil => exact absurd hf hnil
      | cons x t =>
        have hsome : lookupA (lbAgg versions cache) k =
            some (t.foldl lbUpd (lbInit x)) := by
          rw [hlook k, hf]
          exact aggFold_foldl_none_cons _ _ _ _
        have hmem2 := lookupA_some_mem hsome
        refine ⟨entryOfStats (t.foldl lbUpd (lbInit x)), ?_, ?_⟩
        · exact List.mem_map.mpr ⟨(k, t.foldl lbUpd (lbInit x)), hmem2, rfl⟩
        · exact hinv _ hmem2
  · intro e he
    rcases List.mem_map.mp he with ⟨q, hq, hqe⟩
    have hek : e.githubUser = q.1 := by
      rw [← hqe]
      exact hinv q hq
    have hsome : lookupA (lbAgg versions cache) q.1 = some q.2 :=
      mem_lookupA_of_nodup _ hnd hq
    rw [hlook q.1] at hsome
    cases hf : (lbPairs versions cache).filter (fun p => decide (lbKey p = q.1)) with
    | nil =>
      rw [hf] at hsome
      simp at hsome
    | cons x t =>
      rw [hf, aggFold_foldl_none_cons] at hsome
      injection hsome with hval
      have hfold : q.2 = (x :: t).foldl lbUpd
          { name := x.2.name, githubUser := x.2.githubUser,
            avatarURL := x.2.avatarURL, prCount := 0, releases := [] } := by
        rw [← hval, List.foldl_cons]
        rfl
      obtain ⟨h1, h2, _⟩ := lbUpd_foldl (x :: t)
        { name := x.2.name, githubUser := x.2.githubUser,
          avatarURL := x.2.avatarURL, prCount := 0, releases := [] }
      rw [hek, hf]
      constructor
      · have hpc : e.prCount = q.2.prCount := by
          rw [← hqe]
          rfl
        rw [hpc, hfold, h1]
        simp
      · have hrc : e.releases = q.2.releases.length := by
          rw [← hqe]
          rfl
        rw [hrc, hfold, h2]
        rw [show List.foldl (fun acc p => insertSet acc p.1)
            ({ name := x.2.name, githubUser := x.2.githubUser, avatarURL := x.2.avatarURL,
               prCount := 0, releases := [] } : UserStats).releases (x :: t) =
          List.foldl insertSet [] ((x :: t).map (fun p => p.1)) from
            (List.foldl_map _ _ _ _).symm]
        exact insertSet_fold_length _
  · rw [LeaderboardCompute]
    simp only [if_neg (show ¬ (("prs").toList = ("releases").toList) by decide)]
    rw [assignRanks_map_rank, assignRanks_length]
  · rw [LeaderboardCompute]
    simp only [if_neg (show ¬ (("prs").toList = ("releases").toList) by decide)]
    rw [assignRanks_length, List.length_take]
    have hlen : (sortLe lbLePRs ((lbAgg versions cache).map (fun p => entryOfStats p.2))).length =
        ((lbAgg versions cache).map (fun p => entryOfStats p.2)).length :=
      (sortLe_perm _ _).length_eq
    rw [hlen]
    omega
  · rw [LeaderboardCompute]
    simp only [if_neg (show ¬ (("prs").toList = ("releases").toList) by decide)]
    have htot : ∀ a b : LeaderboardEntry, (lbLePRs a b || lbLePRs b a) = true := by
      intro a b
      simp only [lbLePRs, Bool.or_eq_true, Bool.and_eq_true, decide_eq_true_eq]
      omega
    have htrans : ∀ a b c : LeaderboardEntry,
        lbLePRs a b = true → lbLePRs b c = true → lbLePRs a c = true := by
      intro a b c
      simp only [lbLePRs, Bool.or_eq_true, Bool.and_eq_true, decide_eq_true_eq]
      omega
    have hsorted := sortLe_pairwise htot htrans
      ((lbAgg versions cache).map (fun p => entryOfStats p.2))
    have hprop : (sortLe lbLePRs ((lbAgg versions cache).map
        (fun p => entryOfStats p.2))).Pairwise
        (fun a b => b.prCount < a.prCount ∨ (b.prCount = a.prCount ∧ b.releases ≤ a.releases)) :=
      hsorted.imp (fun h => by
        have h2 := by
          simpa [lbLePRs, Bool.or_eq_true, Bool.and_eq_true, decide_eq_true_eq] using h
        rcases h2 with h2 | ⟨h2a, h2b⟩
        · exact Or.inl h2
        · exact Or.inr ⟨h2a.symm, h2b⟩)
    refine assignRanks_pairwise (fun a b i j h => h) 0 ?_
    exact hprop.sublist (List.take_sublist _ _)

theorem SearchContributors_spec_witness :
    SearchContributors [((("v1_1").toList), relDupAlice)] [] = [] ∧
    ((SearchContributors [((("v1_1").toList), relDupAlice)] (("ali").toList)).map
      (fun r => toLowerStr r.githubUser)).Nodup := by
  have h := SearchContributors_spec [((("v1_1").toList), relDupAlice)] (("ali").toList)
  exact ⟨h.1, (h.2 (by decide)).1⟩

theorem Leaderboard_prs_spec_witness :
    (LeaderboardCompute [{ id := ("v1_1").toList, display := ("1.1").toList }]
        [((("v1_1").toList), relTwoCases)] (("prs").toList)).map (fun e => e.rank) =
      List.range' 1 (LeaderboardCompute [{ id := ("v1_1").toList, display := ("1.1").toList }]
        [((("v1_1").toList), relTwoCases)] (("prs").toList)).length :=
  (Leaderboard_prs_spec [{ id := ("v1_1").toList, display := ("1.1").toList }]
    [((("v1_1").toList), relTwoCases)]).2.2.2.1

theorem findMatch_user_ne_nil {ul : GoStr} (hul : ul ≠ []) {rel : Release} {c : Contributor}
    (h : findMatch ul rel = some c) : c.githubUser ≠ [] := by
  have hp := List.find?_some h
  rw [decide_eq_true_eq] at hp
  intro hnil
  apply hul
  rw [← hp, hnil]
  rfl

theorem histStep_totalPRs (ul : GoStr) (st : HistState) (e : GoStr × Release) :
    (histStep ul st e).hist.totalPRs = st.hist.totalPRs + contribLen ul e := by
  unfold histStep contribLen
  cases hm : findMatch ul e.2 with
  | none => simp
  | some c =>
    by_cases hE : st.hist.githubUser.isEmpty = true <;>
      by_cases hc : 0 < c.prs.length <;>
        simp [hE, hc] <;>
          exact List.length_eq_zero.mp (by omega)

theorem histStep_releaseCount (ul : GoStr) (st : HistState) (e : GoStr × Release) :
    (histStep ul st e).hist.releaseCount =
      st.hist.releaseCount + (if (findMatch ul e.2).isSome then 1 else 0) := by
  unfold histStep
  cases hm : findMatch ul e.2 with
  | none => simp
  | some c =>
    by_cases hE : st.hist.githubUser.isEmpty = true <;>
      by_cases hc : 0 < c.prs.length <;>
        simp [hE, hc]

theorem histStep_user_of_nonempty (ul : GoStr) (st : HistState) (e : GoStr × Release)
    (h : st.hist.githubUser ≠ []) :
    (histStep ul st e).hist.githubUser = st.hist.githubUser := by
  have hE : st.hist.githubUser.isEmpty = false := by
    cases hgu : st.hist.githubUser with
    | nil => exact absurd hgu h
    | cons _ _ => rfl
  unfold histStep
  cases hm : findMatch ul e.2 with
  | none => rfl
  | some c =>
    by_cases hc : 0 < c.prs.length <;> simp [hE, hc]

theorem histStep_user_of_empty (ul : GoStr) (st : HistState) (e : GoStr × Release)
    (h : st.hist.githubUser = []) :
    (histStep ul st e).hist.githubUser =
      (match findMatch ul e.2 with
       | some c => c.githubUser
       | none => []) := by
  have hE : st.hist.githubUser.isEmpty = true := by
    rw [h]
    rfl
  unfold histStep
  cases hm : findMatch ul e.2 with
  | none => exact h
  | some c =>
    by_cases hc : 0 < c.prs.length <;> simp [hE, hc]

theorem histStep_firstPair (ul : GoStr) (st : HistState) (e : GoStr × Release)
    (h : (findMatch ul e.2).isSome = true) :
    ((histStep ul st e).firstVersion, (histStep ul st e).firstVersionNum) =
      minVerStep (st.firstVersion, st.firstVersionNum) e.1 := by
  unfold histStep minVerStep
  cases hm : findMatch ul e.2 with
  | none =>
    rw [hm] at h
    cases h
  | some c =>
    by_cases hg : (st.firstVersion.isEmpty ||
        decide (versionNumber e.1 < st.firstVersionNum)) = true <;>
      simp [minVerStep, hg]

theorem histStep_firstPair_nomatch (ul : GoStr) (st : HistState) (e : GoStr × Release)
    (h : findMatch ul e.2 = none) : histStep ul st e = st := by
  unfold histStep
  rw [h]

theorem histStep_latestPair (ul : GoStr) (st : HistState) (e : GoStr × Release)
    (h : (findMatch ul e.2).isSome = true) :
    ((histStep ul st e).latestVersion, (histStep ul st e).latestVersionNum) =
      maxVerStep (st.latestVersion, st.latestVersionNum) e.1 := by
  unfold histStep maxVerStep
  cases hm : findMatch ul e.2 with
  | none =>
    rw [hm] at h
    cases h
  | some c =>
    by_cases hg : (st.latestVersion.isEmpty ||
        decide (st.latestVersionNum < versionNumber e.1)) = true <;>
      simp [maxVerStep, hg]

theorem appendPRsAt_of_fresh (m : List (GoStr × List PR)) (v : GoStr) (prs : List PR)
    (h : ∀ q ∈ m, q.1 ≠ v) : appendPRsAt m v prs = m ++ [(v, prs)] := by
  unfold appendPRsAt
  have hf : m.find? (fun p => decide (p.1 = v)) = none :=
    List.find?_eq_none.mpr (fun q hq => by simpa using h q hq)
  rw [hf]
  rfl

theorem histPRsOf_key {ul : GoStr} {e : GoStr × Release} {q : GoStr × List PR}
    (h : histPRsOf ul e = some q) : q.1 = e.1 := by
  cases hm : findMatch ul e.2 with
  | none => simp [histPRsOf, hm] at h
  | some c =>
    by_cases hc : 0 < c.prs.length
    · simp only [histPRsOf, hm, if_pos hc, Option.some.injEq] at h
      rw [← h]
    · simp [histPRsOf, hm, if_neg hc] at h

theorem histStep_prs (ul : GoStr) (st : HistState) (e : GoStr × Release)
    (hfresh : ∀ q ∈ st.hist.prsByRelease, q.1 ≠ e.1) :
    (histStep ul st e).hist.prsByRelease =
      st.hist.prsByRelease ++ (histPRsOf ul e).toList := by
  unfold histStep histPRsOf
  cases hm : findMatch ul e.2 with
  | none => simp
  | some c =>
    by_cases hc : 0 < c.prs.length
    · have happ := appendPRsAt_of_fresh st.hist.prsByRelease e.1 c.prs hfresh
      by_cases hE : st.hist.githubUser.isEmpty = true <;>
        simp [hE, hc, happ]
    · by_cases hE : st.hist.githubUser.isEmpty = true <;>
        simp [hE, hc]

theorem hist_totalPRs_fold (ul : GoStr) (l : List (GoStr × Release)) (st : HistState) :
    (l.foldl (histStep ul) st).hist.totalPRs =
      st.hist.totalPRs + (l.map (contribLen ul)).sum := by
  induction l generalizing st with
  | nil => simp
  | cons e t ih =>
    rw [List.foldl_cons, ih, histStep_totalPRs, List.map_cons, List.sum_cons]
    omega

theorem hist_releaseCount_fold (ul : GoStr) (l : List (GoStr × Release)) (st : HistState) :
    (l.foldl (histStep ul) st).hist.releaseCount =
      st.hist.releaseCount + l.countP (fun e => (findMatch ul e.2).isSome) := by
  induction l generalizing st with
  | nil => simp
  | cons e t ih =>
    rw [List.foldl_cons, ih, histStep_releaseCount, List.countP_cons]
    by_cases hm : (findMatch ul e.2).isSome = true <;> simp [hm] <;> omega

theorem hist_user_fold_preserved (ul : GoStr) (l : List (GoStr × Release)) (st : HistState)
    (h : st.hist.githubUser ≠ []) :
    (l.foldl (histStep ul) st).hist.githubUser = st.hist.githubUser := by
  induction l generalizing st with
  | nil => rfl
  | cons e t ih =>
    rw [List.foldl_cons]
    have hstep := histStep_user_of_nonempty ul st e h
    rw [ih (histStep ul st e) (by rw [hstep]; exact h), hstep]

theorem hist_user_fold (ul : GoStr) (hul : ul ≠ []) (l : List (GoStr × Release))
    (st : HistState) (h : st.hist.githubUser = []) :
    (l.foldl (histStep ul) st).hist.githubUser =
      (match l.findSome? (fun e => findMatch ul e.2) with
       | some c => c.githubUser
       | none => []) := by
  induction l generalizing st with
  | nil => exact h
  | cons e t ih =>
    rw [List.foldl_cons, List.findSome?_cons]
    cases hm : findMatch ul e.2 with
    | none =>
      have hstep := histStep_user_of_empty ul st e h
      rw [hm] at hstep
      exact ih _ hstep
    | some c =>
      have hstep := histStep_user_of_empty ul st e h
      rw [hm] at hstep
      have hcne : c.githubUser ≠ [] := findMatch_user_ne_nil hul hm
      rw [hist_user_fold_preserved ul t _ (by rw [hstep]; exact hcne), hstep]

theorem matchedVersions_cons (e : GoStr × Release) (t : List (GoStr × Release)) (ul : GoStr) :
    matchedVersions (e :: t) ul =
      if (findMatch ul e.2).isSome then e.1 :: matchedVersions t ul
      else matchedVersions t ul := by
  by_cases hm : (findMatch ul e.2).isSome = true <;>
    simp [matchedVersions, List.filter_cons, hm]

theorem hist_first_fold (ul : GoStr) (l : List (GoStr × Release)) (st : HistState) :
    ((l.foldl (histStep ul) st).firstVersion, (l.foldl (histStep ul) st).firstVersionNum) =
      (matchedVersions l ul).foldl minVerStep (st.firstVersion, st.firstVersionNum) := by
  induction l generalizing st with
  | nil => rfl
  | cons e t ih =>
    rw [List.foldl_cons, matchedVersions_cons]
    cases hm : findMatch ul e.2 with
    | none =>
      rw [histStep_firstPair_nomatch ul st e hm, ih]
      simp
    | some c =>
      rw [ih]
      have hpair := histStep_firstPair ul st e (by simp [hm])
      rw [if_pos (by simp [hm]), List.foldl_cons, ← hpair]

theorem hist_latest_fold (ul : GoStr) (l : List (GoStr × Release)) (st : HistState) :
    ((l.foldl (histStep ul) st).latestVersion, (l.foldl (histStep ul) st).latestVersionNum) =
      (matchedVersions l ul).foldl maxVerStep (st.latestVersion, st.latestVersionNum) := by
  induction l generalizing st with
  | nil => rfl
  | cons e t ih =>
    rw [List.foldl_cons, matchedVersions_cons]
    cases hm : findMatch ul e.2 with
    | none =>
      rw [histStep_firstPair_nomatch ul st e hm, ih]
      simp
    | some c =>
      rw [ih]
      have hpair := histStep_latestPair ul st e (by simp [hm])
      rw [if_pos (by simp [hm]), List.foldl_cons, ← hpair]

theorem hist_prs_fold (ul : GoStr) (l : List (GoStr × Release)) (st : HistState)
    (hdisj : ∀ e ∈ l, ∀ q ∈ st.hist.prsByRelease, q.1 ≠ e.1)
    (hnd : (l.map (fun e => e.1)).Nodup) :
    (l.foldl (histStep ul) st).hist.prsByRelease =
      st.hist.prsByRelease ++ l.filterMap (histPRsOf ul) := by
  induction l generalizing st with
  | nil => simp
  | cons e t ih =>
    rw [List.foldl_cons, List.filterMap_cons]
    have hstep : (histStep ul st e).hist.prsByRelease =
        st.hist.prsByRelease ++ (histPRsOf ul e).toList :=
      histStep_prs ul st e (fun q hq => hdisj e (List.mem_cons_self _ _) q hq)
    rw [List.map_cons, List.nodup_cons] at hnd
    have hdisj2 : ∀ e2 ∈ t, ∀ q ∈ (histStep ul st e).hist.prsByRelease, q.1 ≠ e2.1 := by
      intro e2 he2 q hq
      rw [hstep] at hq
      rcases List.mem_append.mp hq with hq1 | hq2
      · exact hdisj e2 (List.mem_cons_of_mem _ he2) q hq1
      · cases hopt : histPRsOf ul e with
        | none =>
          rw [hopt] at hq2
          cases hq2
        | some b =>
          rw [hopt] at hq2
          rcases List.mem_singleton.mp hq2 with rfl
          rw [histPRsOf_key hopt]
          intro he12
          apply hnd.1
          rw [he12]
          exact List.mem_map.mpr ⟨e2, he2, rfl⟩
    rw [ih _ hdisj2 hnd.2, hstep, List.append_assoc]
    congr 1
    cases hopt : histPRsOf ul e <;> simp [hopt]

theorem minVer_fold_seeded (vs : List GoStr) (hne : ∀ v ∈ vs, v ≠ [])
    (seed : GoStr × Nat) (hs : seed.1 ≠ []) :
    (vs.foldl minVerStep seed = seed ∨
      ((vs.foldl minVerStep seed).1 ∈ vs ∧
       (vs.foldl minVerStep seed).2 = versionNumber (vs.foldl minVerStep seed).1)) ∧
    (vs.foldl minVerStep seed).2 ≤ seed.2 ∧
    (∀ v ∈ vs, (vs.foldl minVerStep seed).2 ≤ versionNumber v) ∧
    (vs.foldl minVerStep seed).1 ≠ [] := by
  induction vs generalizing seed with
  | nil => exact ⟨Or.inl rfl, le_refl _, by simp, hs⟩
  | cons v t ih =>
    have hv : v ≠ [] := hne v (List.mem_cons_self _ _)
    have hne2 : ∀ u ∈ t, u ≠ [] := fun u hu => hne u (List.mem_cons_of_mem _ hu)
    have hsE : seed.1.isEmpty = false := by
      cases hs1 : seed.1 with
      | nil => exact absurd hs1 hs
      | cons _ _ => rfl
    rw [List.foldl_cons]
    by_cases hlt : versionNumber v < seed.2
    · have hstep : minVerStep seed v = (v, versionNumber v) := by
        simp [minVerStep, hsE, hlt]
      rw [hstep]
      obtain ⟨h1, h2, h3, h4⟩ := ih hne2 (v, versionNumber v) hv
      refine ⟨?_, ?_, ?_, h4⟩
      · rcases h1 with h1 | ⟨h1a, h1b⟩
        · right
          rw [h1]
          exact ⟨List.mem_cons_self _ _, rfl⟩
        · exact Or.inr ⟨List.mem_cons_of_mem _ h1a, h1b⟩
      · exact le_trans h2 (le_of_lt hlt)
      · intro u hu
        rcases List.mem_cons.mp hu with rfl | hu2
        · exact h2
        · exact h3 u hu2
    · have hstep : minVerStep seed v = seed := by
        simp [minVerStep, hsE, hlt]
      rw [hstep]
      obtain ⟨h1, h2, h3, h4⟩ := ih hne2 seed hs
      refine ⟨?_, h2, ?_, h4⟩
      · rcases h1 with h1 | ⟨h1a, h1b⟩
        · exact Or.inl h1
        · exact Or.inr ⟨List.mem_cons_of_mem _ h1a, h1b⟩
      · intro u hu
        rcases List.mem_cons.mp hu with rfl | hu2
        · exact le_trans h2 (le_of_not_lt hlt)
        · exact h3 u hu2

theorem minVer_fold_spec (vs : List GoStr) (hne : ∀ v ∈ vs, v ≠ []) (hvs : vs ≠ []) :
    (vs.foldl minVerStep ([], 0)).1 ∈ vs ∧
    (vs.foldl minVerStep ([], 0)).2 = versionNumber (vs.foldl minVerStep ([], 0)).1 ∧
    ∀ v ∈ vs, (vs.foldl minVerStep ([], 0)).2 ≤ versionNumber v := by
  cases vs with
  | nil => exact absurd rfl hvs
  | cons v t =>
    have hv : v ≠ [] := hne v (List.mem_cons_self _ _)
    rw [List.foldl_cons]
    have hstep : minVerStep ([], 0) v = (v, versionNumber v) := by
      simp [minVerStep]
    rw [hstep]
    obtain ⟨h1, h2, h3, h4⟩ :=
      minVer_fold_seeded t (fun u hu => hne u (List.mem_cons_of_mem _ hu))
        (v, versionNumber v) hv
    refine ⟨?_, ?_, ?_⟩
    · rcases h1 with h1 | ⟨h1a, _⟩
      · rw [h1]
        exact List.mem_cons_self _ _
      · exact List.mem_cons_of_mem _ h1a
    · rcases h1 with h1 | ⟨_, h1b⟩
      · rw [h1]
      · exact h1b
    · intro u hu
      rcases List.mem_cons.mp hu with rfl | hu2
      · exact h2
      · exact h3 u hu2

theorem maxVer_fold_seeded (vs : List GoStr) (hne : ∀ v ∈ vs, v ≠ [])
    (seed : GoStr × Nat) (hs : seed.1 ≠ []) :
    (vs.foldl maxVerStep seed = seed ∨
      ((vs.foldl maxVerStep seed).1 ∈ vs ∧
       (vs.foldl maxVerStep seed).2 = versionNumber (vs.foldl maxVerStep seed).1)) ∧
    seed.2 ≤ (vs.foldl maxVerStep seed).2 ∧
    (∀ v ∈ vs, versionNumber v ≤ (vs.foldl maxVerStep seed).2) ∧
    (vs.foldl maxVerStep seed).1 ≠ [] := by
  induction vs generalizing seed with
  | nil => exact ⟨Or.inl rfl, le_refl _, by simp, hs⟩
  | cons v t ih =>
    have hv : v ≠ [] := hne v (List.mem_cons_self _ _)
    have hne2 : ∀ u ∈ t, u ≠ [] := fun u hu => hne u (List.mem_cons_of_mem _ hu)
    have hsE : seed.1.isEmpty = false := by
      cases hs1 : seed.1 with
      | nil => exact absurd hs1 hs
      | cons _ _ => rfl
    rw [List.foldl_cons]
    by_cases hlt : seed.2 < versionNumber v
    · have hstep : maxVerStep seed v = (v, versionNumber v) := by
        simp [maxVerStep, hsE, hlt]
      rw [hstep]
      obtain ⟨h1, h2, h3, h4⟩ := ih hne2 (v, versionNumber v) hv
      refine ⟨?_, ?_, ?_, h4⟩
      · rcases h1 with h1 | ⟨h1a, h1b⟩
        · right
          rw [h1]
          exact ⟨List.mem_cons_self _ _, rfl⟩
        · exact Or.inr ⟨List.mem_cons_of_mem _ h1a, h1b⟩
      · exact le_trans (le_of_lt hlt) h2
      · intro u hu
        rcases List.mem_cons.mp hu with rfl | hu2
        · exact h2
        · exact h3 u hu2
    · have hstep : maxVerStep seed v = seed := by
        simp [maxVerStep, hsE, hlt]
      rw [hstep]
      obtain ⟨h1, h2, h3, h4⟩ := ih hne2 seed hs
      refine ⟨?_, h2, ?_, h4⟩
      · rcases h1 with h1 | ⟨h1a, h1b⟩
        · exact Or.inl h1
        · exact Or.inr ⟨List.mem_cons_of_mem _ h1a, h1b⟩
      · intro u hu
        rcases List.mem_cons.mp hu with rfl | hu2
        · exact le_trans (le_of_not_lt hlt) h2
        · exact h3 u hu2

theorem maxVer_fold_spec (vs : List GoStr) (hne : ∀ v ∈ vs, v ≠ []) (hvs : vs ≠ []) :
    (vs.foldl maxVerStep ([], 0)).1 ∈ vs ∧
    (vs.foldl maxVerStep ([], 0)).2 = versionNumber (vs.foldl maxVerStep ([], 0)).1 ∧
    ∀ v ∈ vs, versionNumber v ≤ (vs.foldl maxVerStep ([], 0)).2 := by
  cases vs with
  | nil => exact absurd rfl hvs
  | cons v t =>
    have hv : v ≠ [] := hne v (List.mem_cons_self _ _)
    rw [List.foldl_cons]
    have hstep : maxVerStep ([], 0) v = (v, versionNumber v) := by
      simp [maxVerStep]
    rw [hstep]
    obtain ⟨h1, h2, h3, h4⟩ :=
      maxVer_fold_seeded t (fun u hu => hne u (List.mem_cons_of_mem _ hu))
        (v, versionNumber v) hv
    refine ⟨?_, ?_, ?_⟩
    · rcases h1 with h1 | ⟨h1a, _⟩
      · rw [h1]
        exact List.mem_cons_self _ _
      · exact List.mem_cons_of_mem _ h1a
    · rcases h1 with h1 | ⟨_, h1b⟩
      · rw [h1]
      · exact h1b
    · intro u hu
      rcases List.mem_cons.mp hu with rfl | hu2
      · exact h2
      · exact h3 u hu2

theorem toLowerStr_ne_nil {username : GoStr} (hu : username ≠ []) :
    toLowerStr username ≠ [] := by
  cases username with
  | nil => exact absurd rfl hu
  | cons c t =>
    intro hn
    cases hn

theorem matchedVersions_ne_nil {cache : Cache} {ul : GoStr} {e : GoStr × Release}
    (he : e ∈ cache) (hm : (findMatch ul e.2).isSome = true) :
    matchedVersions cache ul ≠ [] := by
  have : e.1 ∈ matchedVersions cache ul :=
    List.mem_map.mpr ⟨e, List.mem_filter.mpr ⟨he, hm⟩, rfl⟩
  exact List.ne_nil_of_mem this

theorem matchedVersions_keys {cache : Cache} {ul : GoStr} {v : GoStr}
    (hv : v ∈ matchedVersions cache ul) : ∃ e ∈ cache, e.1 = v := by
  rcases List.mem_map.mp hv with ⟨e, he, rfl⟩
  exact ⟨e, (List.mem_filter.mp he).1, rfl⟩

theorem gch_char (cache : Cache) (username : GoStr) (hu : username ≠ [])
    (hkeys : ∀ e ∈ cache, e.1 ≠ [])
    (hnd : (cache.map (fun e => e.1)).Nodup) :
    (GetContributorHistory cache username = none ↔
      cache.findSome? (fun e => findMatch (toLowerStr username) e.2) = none) ∧
    (∀ h, GetContributorHistory cache username = some h →
      h.totalPRs = (cache.map (contribLen (toLowerStr username))).sum ∧
      h.releaseCount = cache.countP (fun e => (findMatch (toLowerStr username) e.2).isSome) ∧
      h.firstRelease ∈ matchedVersions cache (toLowerStr username) ∧
      (∀ v ∈ matchedVersions cache (toLowerStr username),
        versionNumber h.firstRelease ≤ versionNumber v) ∧
      h.latestRelease ∈ matchedVersions cache (toLowerStr username) ∧
      (∀ v ∈ matchedVersions cache (toLowerStr username),
        versionNumber v ≤ versionNumber h.latestRelease) ∧
      h.prsByRelease = cache.filterMap (histPRsOf (toLowerStr username))) := by
  have hul : toLowerStr username ≠ [] := toLowerStr_ne_nil hu
  have huser := hist_user_fold (toLowerStr username) hul cache initHistState rfl
  have hmne : ∀ v ∈ matchedVersions cache (toLowerStr username), v ≠ [] := by
    intro v hv
    rcases matchedVersions_keys hv with ⟨e, he, rfl⟩
    exact hkeys e he
  constructor
  · constructor
    · intro hnone
      by_contra hfs
      cases hfsv : cache.findSome? (fun e => findMatch (toLowerStr username) e.2) with
      | none => exact hfs hfsv
      | some c =>
        rw [hfsv] at huser
        have hcne : c.githubUser ≠ [] := by
          rcases List.exists_of_findSome?_eq_some hfsv with ⟨e, _, hme⟩
          exact findMatch_user_ne_nil hul hme
        have hE : (cache.foldl (histStep (toLowerStr username))
            initHistState).hist.githubUser.isEmpty = false := by
          rw [huser]
          show c.githubUser.isEmpty = false
          cases hgu : c.githubUser with
          | nil => exact absurd hgu hcne
          | cons _ _ => rfl
        simp only [GetContributorHistory, hE, Bool.false_eq_true, if_false] at hnone
        cases hnone
    · intro hfs
      rw [hfs] at huser
      have hE : (cache.foldl (histStep (toLowerStr username))
          initHistState).hist.githubUser.isEmpty = true := by
        rw [huser]
        rfl
      simp only [GetContributorHistory, hE, if_true]
  · intro h hsome
    by_cases hE : (cache.foldl (histStep (toLowerStr username))
        initHistState).hist.githubUser.isEmpty = true
    · simp only [GetContributorHistory, hE, if_true] at hsome
      cases hsome
    · have hE2 : (cache.foldl (histStep (toLowerStr username))
          initHistState).hist.githubUser.isEmpty = false := by
        rwa [Bool.not_eq_true] at hE
      simp only [GetContributorHistory, hE2, Bool.false_eq_true, if_false,
        Option.some.injEq] at hsome
      have hmnenil : matchedVersions cache (toLowerStr username) ≠ [] := by
        cases hfsv : cache.findSome? (fun e => findMatch (toLowerStr username) e.2) with
        | none =>
          rw [hfsv] at huser
          rw [huser] at hE2
          cases hE2
        | some c =>
          rcases List.exists_of_findSome?_eq_some hfsv with ⟨e, he, hme⟩
          exact matchedVersions_ne_nil he (by simp [hme])
      obtain ⟨hf1, hf2, hf3⟩ :=
        minVer_fold_spec (matchedVersions cache (toLowerStr username)) hmne hmnenil
      obtain ⟨hl1, hl2, hl3⟩ :=
        maxVer_fold_spec (matchedVersions cache (toLowerStr username)) hmne hmnenil
      have hfirstpair := hist_first_fold (toLowerStr username) cache initHistState
      have hlatestpair := hist_latest_fold (toLowerStr username) cache initHistState
      have hfv : (cache.foldl (histStep (toLowerStr username)) initHistState).firstVersion =
          ((matchedVersions cache (toLowerStr username)).foldl minVerStep ([], 0)).1 :=
        congrArg Prod.fst hfirstpair
      have hfn : (cache.foldl (histStep (toLowerStr username)) initHistState).firstVersionNum =
          ((matchedVersions cache (toLowerStr username)).foldl minVerStep ([], 0)).2 :=
        congrArg Prod.snd hfirstpair
      have hlv : (cache.foldl (histStep (toLowerStr username)) initHistState).latestVersion =
          ((matchedVersions cache (toLowerStr username)).foldl maxVerStep ([], 0)).1 :=
        congrArg Prod.fst hlatestpair
      refine ⟨?_, ?_, ?_, ?_, ?_, ?_, ?_⟩
      · rw [← hsome]
        have hfold := hist_totalPRs_fold (toLowerStr username) cache initHistState
        simpa [initHistState] using hfold
      · rw [← hsome]
        have hfold := hist_releaseCount_fold (toLowerStr username) cache initHistState
        simpa [initHistState] using hfold
      · rw [← hsome]
        show (cache.foldl (histStep (toLowerStr username)) initHistState).firstVersion ∈ _
        rw [hfv]
        exact hf1
      · intro v hv
        rw [← hsome]
        show versionNumber (cache.foldl (histStep (toLowerStr username))
          initHistState).firstVersion ≤ _
        rw [hfv, ← hf2]
        exact hf3 v hv
      · rw [← hsome]
        show (cache.foldl (histStep (toLowerStr username)) initHistState).latestVersion ∈ _
        rw [hlv]
        exact hl1
      · intro v hv
        rw [← hsome]
        show versionNumber v ≤ versionNumber (cache.foldl (histStep (toLowerStr username))
          initHistState).latestVersion
        rw [hlv, ← hl2]
        exact hl3 v hv
      · rw [← hsome]
        show (cache.foldl (histStep (toLowerStr username)) initHistState).hist.prsByRelease = _
        rw [hist_prs_fold (toLowerStr username) cache initHistState (by simp [initHistState]) hnd]
        rfl

/-- C7: GetContributorHistory(handle) is absent exactly when no cached
release contains a contributor matching the handle case-insensitively;
otherwise TotalPRs sums the matched contributors' PR counts (one matched
contributor per matching release, the first in document order),
ReleaseCount counts the matching releases, and FirstRelease/LatestRelease
are matched versions of minimal and maximal ordinal under the (major,
minor) ordering.  The hypotheses state invariants every reachable cache
satisfies: the handle is non-empty, cache keys are non-empty version
identifiers, and the keys are distinct (the cache models a Go map). -/
theorem GetContributorHistory_spec (cache : Cache) (username : GoStr)
    (hu : username ≠ [])
    (hkeys : ∀ e ∈ cache, e.1 ≠ [])
    (hnd : (cache.map (fun e => e.1)).Nodup) :
    (GetContributorHistory cache username = none ↔
      ∀ e ∈ cache, ∀ c ∈ e.2.contributors,
        ¬ toLowerStr c.githubUser = toLowerStr username) ∧
    (∀ h, GetContributorHistory cache username = some h →
      h.totalPRs = (cache.map (contribLen (toLowerStr username))).sum ∧
      h.releaseCount = cache.countP (fun e => (findMatch (toLowerStr username) e.2).isSome) ∧
      h.firstRelease ∈ matchedVersions cache (toLowerStr username) ∧
      (∀ v ∈ matchedVersions cache (toLowerStr username),
        versionNumber h.firstRelease ≤ versionNumber v) ∧
      h.latestRelease ∈ matchedVersions cache (toLowerStr username) ∧
      (∀ v ∈ matchedVersions cache (toLowerStr username),
        versionNumber v ≤ versionNumber h.latestRelease)) := by
  obtain ⟨h1, h2⟩ := gch_char cache username hu hkeys hnd
  constructor
  · rw [h1, List.findSome?_eq_none_iff]
    constructor
    · intro hfs e he c hc
      have hfm := List.find?_eq_none.mp (hfs e he) c hc
      simpa using hfm
    · intro hall e he
      apply List.find?_eq_none.mpr
      intro c hc
      simpa using hall e he c hc
  · intro h hsome
    obtain ⟨ha, hb, hc1, hd, he1, hf, _⟩ := h2 h hsome
    exact ⟨ha, hb, hc1, hd, he1, hf⟩

theorem GetContributorHistory_spec_witness :
    GetContributorHistory cacheAB (("bob").toList) = none := by
  have h := GetContributorHistory_spec cacheAB (("bob").toList) (by decide) (by decide)
    (by decide)
  exact h.1.mpr (by decide)

/-- C8 counterexample: the same two cached releases visited in the two
possible iteration orders give the same totals but different representative
display names, because the name is taken from the first matched release in
iteration order. -/
theorem history_order_dependent_counterexample :
    cacheBA.Perm cacheAB ∧
    (GetContributorHistory cacheAB (("alice").toList)).map (fun h => h.name) =
      some (("Alice A.").toList) ∧
    (GetContributorHistory cacheBA (("alice").toList)).map (fun h => h.name) =
      some (("Alice B.").toList) ∧
    (GetContributorHistory cacheAB (("alice").toList)).map (fun h => h.name) ≠
      (GetContributorHistory cacheBA (("alice").toList)).map (fun h => h.name) := by
  refine ⟨by decide, by decide, by decide, by decide⟩

/-- C8 amended: for two iteration orders over the same cached releases,
GetContributorHistory yields absent results together, and when present the
totals, release count, first and latest releases (under pairwise-distinct
matched ordinals) and the PRsByRelease map (up to entry order) coincide;
the representative handle, display name and avatar URL are exempt - they
come from the first matched release in iteration order and do depend on it,
as the counterexample shows. -/
theorem GetContributorHistory_perm_spec (cache1 cache2 : Cache) (username : GoStr)
    (hperm : cache1.Perm cache2)
    (hu : username ≠ [])
    (hkeys : ∀ e ∈ cache1, e.1 ≠ [])
    (hnd : (cache1.map (fun e => e.1)).Nodup)
    (hdist : List.Pairwise (fun u v => versionNumber u ≠ versionNumber v)
      (matchedVersions cache1 (toLowerStr username))) :
    (GetContributorHistory cache1 username = none ↔
     GetContributorHistory cache2 username = none) ∧
    (∀ h1 h2, GetContributorHistory cache1 username = some h1 →
      GetContributorHistory cache2 username = some h2 →
      h1.totalPRs = h2.totalPRs ∧ h1.releaseCount = h2.releaseCount ∧
      h1.firstRelease = h2.firstRelease ∧ h1.latestRelease = h2.latestRelease ∧
      h1.prsByRelease.Perm h2.prsByRelease) := by
  have hkeys2 : ∀ e ∈ cache2, e.1 ≠ [] := fun e he => hkeys e (hperm.mem_iff.mpr he)
  have hnd2 : (cache2.map (fun e => e.1)).Nodup := ((hperm.map _).nodup_iff).mp hnd
  obtain ⟨c1iff, c1some⟩ := gch_char cache1 username hu hkeys hnd
  obtain ⟨c2iff, c2some⟩ := gch_char cache2 username hu hkeys2 hnd2
  have hmperm : (matchedVersions cache1 (toLowerStr username)).Perm
      (matchedVersions cache2 (toLowerStr username)) := (hperm.filter _).map _
  have hsym : ∀ u v : GoStr, versionNumber u ≠ versionNumber v →
      versionNumber v ≠ versionNumber u := fun u v hx => Ne.symm hx
  constructor
  · rw [c1iff, c2iff, List.findSome?_eq_none_iff, List.findSome?_eq_none_iff]
    constructor
    · intro hall e he
      exact hall e (hperm.mem_iff.mpr he)
    · intro hall e he
      exact hall e (hperm.mem_iff.mp he)
  · intro h1 h2 hs1 hs2
    obtain ⟨t1, r1, fm1, fb1, lm1, lb1, p1⟩ := c1some h1 hs1
    obtain ⟨t2, r2, fm2, fb2, lm2, lb2, p2⟩ := c2some h2 hs2
    refine ⟨?_, ?_, ?_, ?_, ?_⟩
    · rw [t1, t2]
      exact (hperm.map _).sum_eq
    · rw [r1, r2]
      exact hperm.countP_eq _
    · have hmem2 : h2.firstRelease ∈ matchedVersions cache1 (toLowerStr username) :=
        hmperm.mem_iff.mpr fm2
      have hle1 : versionNumber h1.firstRelease ≤ versionNumber h2.firstRelease :=
        fb1 _ hmem2
      have hle2 : versionNumber h2.firstRelease ≤ versionNumber h1.firstRelease :=
        fb2 _ (hmperm.mem_iff.mp fm1)
      by_contra hne
      exact absurd (by omega : versionNumber h1.firstRelease = versionNumber h2.firstRelease)
        (List.Pairwise.forall (fun x y hxy => hsym x y hxy) hdist fm1 hmem2 hne)
    · have hmem2 : h2.latestRelease ∈ matchedVersions cache1 (toLowerStr username) :=
        hmperm.mem_iff.mpr lm2
      have hle1 : versionNumber h2.latestRelease ≤ versionNumber h1.latestRelease :=
        lb1 _ hmem2
      have hle2 : versionNumber h1.latestRelease ≤ versionNumber h2.latestRelease :=
        lb2 _ (hmperm.mem_iff.mp lm1)
      by_contra hne
      exact absurd (by omega : versionNumber h1.latestRelease = versionNumber h2.latestRelease)
        (List.Pairwise.forall (fun x y hxy => hsym x y hxy) hdist lm1 hmem2 hne)
    · rw [p1, p2]
      exact hperm.filterMap _

theorem GetContributorHistory_perm_spec_witness :
    GetContributorHistory cacheAB (("alice").toList) = none ↔
    GetContributorHistory cacheBA (("alice").toList) = none :=
  (GetContributorHistory_perm_spec cacheAB cacheBA (("alice").toList)
    (by decide) (by decide) (by decide) (by decide) (by decide)).1
